import Mathlib

/-!
# Verification of the BPMN-moddle graph-to-tree converter

Shallow embedding of `src/src/utils/BpmnModdleParser.ts` from the
`bptlab/conceptual-bot-modeler` repository.

The TypeScript class `BpmnModdleParser` walks a bpmn-moddle object graph and
produces a nested process tree plus a per-node metadata table
(`processTreeNodes`).  The moddle object graph is mutually referential
(node → outgoing flow → target node), so the embedding represents it as an
id-keyed document (`Doc`): every element is stored once under its unique id
and references (`outgoing`, `sourceRef`, `targetRef`, `flowElements`) are
plain id strings.  A reference that fails to resolve is reported as
`Err.danglingRef`; in JavaScript a live object reference always resolves, so
this error never occurs on faithfully translated inputs.

JavaScript specifics that the embedding preserves:
* `element.name || element.id` — the empty string is falsy (`jsOr`);
* `obj[k] = v` on a plain object keeps the original insertion position of an
  existing key and appends new keys at the end (`recordInfo`);
* `lastElement.outgoing` is truthy for an *empty* array, so the walker then
  evaluates `lastElement.outgoing[0].targetRef` which throws a TypeError
  (`Err.typeError`); only a missing (`undefined`) `outgoing` property makes
  the walk stop cleanly;
* thrown errors do not roll back the already mutated `processTreeNodes`
  table, hence every parsing function returns its (possibly failed) result
  *together with* the state it produced.

The `throw new Error(...)` sites are mapped to an error enumeration:
* `Err.malformedGraph`          = "Startevent is not connected to flow!"
* `Err.inconsistentJoin`        = "Something is wrong with the structure of your diagram!"
* `Err.missingOperationBinding` = "Not all elements are correctly configured with an RPA operation."

The TypeScript recursion (`parseProcess` → `parseProcessFlowUntilElement` →
`parseProcessSegment` → `parseSplittedControlflow`/`parseProcess`, plus the
`while` loop and the `forEach` over gateway branches) is not structurally
terminating on an arbitrary graph, so the embedding is indexed by fuel: one
unit of fuel is consumed per `while`-loop iteration, per `forEach` step over
a further branch, and per descent into a gateway block or a sub-process.
Running out of fuel yields the marker `Err.fuelOut`, which is distinct from
every real error of the program.
-/

/-- Metadata record stored per node (`ProcessTreeNodeInfo` from
`BotModel.ts`): `label` = `element.name || element.id`, `concept` =
`element.$attrs["rpa:operation"]`. -/
structure NodeInfo where
  label : String
  concept : String
deriving Repr, DecidableEq

/-- A bpmn-moddle element.  One flat record covers flow nodes
(`StartEvent`, `EndEvent`, `Task`, gateways, `SubProcess`), sequence flows
and the process itself; fields that a given element kind does not use keep
their defaults.  `outgoing` is `none` when the JavaScript property is
`undefined` and `some l` when it is the array `l` of sequence-flow ids. -/
structure Element where
  id : String
  type : String
  name : Option String := none
  attrs : List (String × String) := []
  outgoing : Option (List String) := none
  sourceRef : Option String := none
  targetRef : Option String := none
  flowElements : List String := []
deriving Repr, DecidableEq

/-- The bpmn-moddle `Definitions` object: `rootElements` (ids) plus the
id-keyed store of every element of the document, sub-process contents
included. -/
structure Doc where
  rootElements : List String
  elements : List Element
deriving Repr, DecidableEq

/-- Resolve an element reference by id (the embedding's stand-in for
following a JavaScript object pointer). -/
def Doc.find (doc : Doc) (i : String) : Option Element :=
  doc.elements.find? (fun e => e.id == i)

/-- The process tree (`ProcessTreeStructure`): a leaf is a node id string, a
`node k l` is the single-key record `{k: l}`.  `arr` renders a raw nested
array; it is only produced by the dead `else` branch of
`parseSplittedControlflow` (lines 164-166), which is unreachable because
`parseProcessFlowUntilElement` always returns a one-element array. -/
inductive PTree where
  | leaf : String → PTree
  | node : String → List PTree → PTree
  | arr : List PTree → PTree
deriving Repr

/-- Failure modes of the parser.  The first three correspond to the
`throw new Error` sites of the source, `typeError` to a JavaScript TypeError
raised by dereferencing `undefined`, `danglingRef` to an id that does not
resolve (impossible for object references), and `fuelOut` to exhaustion of
the recursion fuel of the embedding. -/
inductive Err where
  | malformedGraph
  | inconsistentJoin
  | missingOperationBinding
  | typeError
  | danglingRef
  | fuelOut
deriving Repr, DecidableEq

/-- The mutable `processTreeNodes : Record<string, ProcessTreeNodeInfo>`
field, as an insertion-ordered association list. -/
abbrev St := List (String × NodeInfo)

/-- `element.$attrs[k]`, with `k in element.$attrs` ↔ the result is `some`. -/
def lookupAttr (e : Element) (k : String) : Option String :=
  (e.attrs.find? (fun p => p.1 == k)).map (fun p => p.2)

/-- JavaScript `a || b` on an optional string: `undefined` and `""` are
falsy. -/
def jsOr : Option String → String → String
  | some s, d => if s == "" then d else s
  | none, d => d

/-- JavaScript `obj[k] = v`: an existing key keeps its position and gets the
new value, a new key is appended. -/
def recordInfo (st : St) (k : String) (v : NodeInfo) : St :=
  if st.any (fun p => p.1 == k) then
    st.map (fun p => if p.1 == k then (k, v) else p)
  else st ++ [(k, v)]

/-- `BpmnModdleParser.getProcessNodeInfo` (lines 196-206): fails when the
element has no `rpa:operation` attribute, otherwise builds the metadata
record. -/
def getProcessNodeInfo (e : Element) : Except Err NodeInfo :=
  match lookupAttr e "rpa:operation" with
  | none => .error .missingOperationBinding
  | some op => .ok { label := jsOr e.name e.id, concept := op }

/-- `BpmnModdleParser.addProcessNodeInfo` (lines 191-194): store the
metadata record under the element's id; a thrown
`missingOperationBinding` leaves the table untouched. -/
def addProcessNodeInfo (st : St) (e : Element) : Except Err Unit × St :=
  match getProcessNodeInfo e with
  | .error er => (.error er, st)
  | .ok info => (.ok (), recordInfo st e.id info)

/-- The `sequenceFlows.find(...)` step of `getStartFlowOfProcess`: scan the
flows in order for one whose `sourceRef.$type === "bpmn:StartEvent"`.  A
flow with an `undefined` `sourceRef` makes the callback throw. -/
def findStartFlow (doc : Doc) : List Element → Except Err (Option Element)
  | [] => .ok none
  | f :: rest =>
    match f.sourceRef with
    | none => .error .typeError
    | some sid =>
      match doc.find sid with
      | none => .error .danglingRef
      | some src =>
        if src.type == "bpmn:StartEvent" then .ok (some f)
        else findStartFlow doc rest

/-- `BpmnModdleParser.getStartFlowOfProcess` (lines 214-224): filter the
process's `flowElements` down to sequence flows, then find the one leaving a
start event.  Returns `ok none` ("absent") when no such flow exists. -/
def getStartFlowOfProcess (doc : Doc) (p : Element) : Except Err (Option Element) :=
  let sequenceFlows :=
    (p.flowElements.filterMap doc.find).filter (fun e => e.type == "bpmn:SequenceFlow")
  findStartFlow doc sequenceFlows

/-- The join consistency check of `parseSplittedControlflow` (lines
174-178): `lastElementsOfBranches.every(e => e.id === lastElementsOfBranches[0].id)`. -/
def allSameFirstId (l : List Element) : Bool :=
  match l with
  | [] => true
  | x :: _ => l.all (fun e => e.id == x.id)

/-- Result type of `parseProcess`, `parseProcessSegment` and
`parseSplittedControlflow`: `[tree fragment, last element in flow]`, paired
with the `processTreeNodes` state after the call (errors keep the state
mutated so far). -/
abbrev ResP := Except Err (PTree × Option Element) × St

/-- Result type of `parseProcessFlowUntilElement` and of its `while` loop. -/
abbrev ResL := Except Err (List PTree × Option Element) × St

/-- Result type of the `forEach` fold over gateway branches: accumulated
`splittetControlflowBranches` and `lastElementsOfBranches`. -/
abbrev ResB := Except Err (List PTree × List Element) × St

/-- One fuel level of the mutually recursive parser: each field is the
corresponding method of `BpmnModdleParser`. -/
structure Interp where
  pp : St → Element → ResP
  pfu : St → Option Element → String → ResL
  floop : St → List PTree → Option Element → String → ResL
  seg : St → Element → ResP
  splitFlow : St → Element → ResP
  branches : St → List String → String → ResB

/-- The all-stuck interpreter used at fuel 0. -/
def Interp.stuck : Interp where
  pp := fun st _ => (.error .fuelOut, st)
  pfu := fun st _ _ => (.error .fuelOut, st)
  floop := fun st _ _ _ => (.error .fuelOut, st)
  seg := fun st _ => (.error .fuelOut, st)
  splitFlow := fun st _ => (.error .fuelOut, st)
  branches := fun st _ _ => (.error .fuelOut, st)

/-- The fuel-indexed interpreter.  At fuel `f+1` each field is the body of
the corresponding TypeScript method; calls that stay on the same recursion
step (e.g. `parseProcessFlowUntilElement` running its own `while` loop, or
a method calling a sibling on the same element) use the same level, while
the `while`-loop iteration, the `forEach` step to the next branch, and the
descent into a gateway block or sub-process recurse at fuel `f`. -/
def interp (doc : Doc) : Nat → Interp
  | 0 => Interp.stuck
  | f + 1 =>
    let I := interp doc f
    -- parseProcessSegment (lines 121-138)
    let seg : St → Element → ResP := fun st cur =>
      if cur.type == "bpmn:Task" then
        match addProcessNodeInfo st cur with
        | (.error e, st') => (.error e, st')
        | (.ok _, st') => (.ok (.leaf cur.id, some cur), st')
      else if cur.type == "bpmn:ParallelGateway" || cur.type == "bpmn:ExclusiveGateway" then
        I.splitFlow st cur
      else if cur.type == "bpmn:SubProcess" then
        I.pp st cur
      else
        (.ok (.leaf "", none), st)
    -- the while loop of parseProcessFlowUntilElement (lines 94-107)
    let floop : St → List PTree → Option Element → String → ResL :=
      fun st acc next tt =>
        match next with
        | none => (.ok (acc, none), st)
        | some cur =>
          if cur.type == tt then (.ok (acc, some cur), st)
          else
            match seg st cur with
            | (.error e, st') => (.error e, st')
            | (.ok (treePart, lastElement), st') =>
              let acc' := acc ++ [treePart]
              match lastElement with
              | none => (.ok (acc', none), st')
              | some le =>
                match le.outgoing with
                | none => (.ok (acc', none), st')
                | some [] => (.error .typeError, st')
                | some (eid :: _) =>
                  match doc.find eid with
                  | none => (.error .danglingRef, st')
                  | some edge =>
                    match edge.targetRef with
                    | none => (.ok (acc', none), st')
                    | some tid =>
                      match doc.find tid with
                      | none => (.error .danglingRef, st')
                      | some tgt => I.floop st' acc' (some tgt) tt
    -- parseProcessFlowUntilElement (lines 82-113)
    let pfu : St → Option Element → String → ResL := fun st start tt =>
      match floop st [] start tt with
      | (.error e, st') => (.error e, st')
      | (.ok (parsedProcess, next), st') =>
        if parsedProcess.length == 1 then (.ok (parsedProcess, next), st')
        else (.ok ([.node "Flow" parsedProcess], next), st')
    -- the forEach over gateway branches (lines 156-171)
    let branches : St → List String → String → ResB := fun st edges tt =>
      match edges with
      | [] => (.ok ([], []), st)
      | eid :: rest =>
        match doc.find eid with
        | none => (.error .danglingRef, st)
        | some branch =>
          let start : Except Err (Option Element) :=
            match branch.targetRef with
            | none => .ok none
            | some tid =>
              match doc.find tid with
              | none => .error .danglingRef
              | some t => .ok (some t)
          match start with
          | .error e => (.error e, st)
          | .ok s =>
            match pfu st s tt with
            | (.error e, st') => (.error e, st')
            | (.ok (parsedFlowBranch, lastElement), st') =>
              let frag : PTree :=
                match parsedFlowBranch with
                | [x] => x
                | l => .arr l
              let newLasts : List Element :=
                match lastElement with
                | some le => [le]
                | none => []
              match I.branches st' rest tt with
              | (.error e, st'') => (.error e, st'')
              | (.ok (fr, ls), st'') => (.ok (frag :: fr, newLasts ++ ls), st'')
    -- parseSplittedControlflow (lines 146-189)
    let splitFlow : St → Element → ResP := fun st gw =>
      match gw.outgoing with
      | none => (.error .typeError, st)
      | some edges =>
        match branches st edges gw.type with
        | (.error e, st') => (.error e, st')
        | (.ok (frags, lasts), st') =>
          if allSameFirstId lasts then
            match addProcessNodeInfo st' gw with
            | (.error e, st'') => (.error e, st'')
            | (.ok _, st'') => (.ok (.node gw.id frags, lasts.head?), st'')
          else (.error .inconsistentJoin, st')
    -- parseProcess (lines 49-73)
    let pp : St → Element → ResP := fun st p =>
      match getStartFlowOfProcess doc p with
      | .error e => (.error e, st)
      | .ok none => (.error .malformedGraph, st)
      | .ok (some startFlow) =>
        match startFlow.targetRef with
        | none => (.error .malformedGraph, st)
        | some tid =>
          match doc.find tid with
          | none => (.error .danglingRef, st)
          | some tgt =>
            match pfu st (some tgt) "bpmn:EndEvent" with
            | (.error e, st') => (.error e, st')
            | (.ok (treePart, _last), st') =>
              if (lookupAttr p "rpa:operation").isSome then
                match addProcessNodeInfo st' p with
                | (.error e, st'') => (.error e, st'')
                | (.ok _, st'') => (.ok (.node p.id treePart, some p), st'')
              else
                (.ok (.node "Process" treePart, some p), st')
    { pp := pp, pfu := pfu, floop := floop, seg := seg,
      splitFlow := splitFlow, branches := branches }

/-- `BpmnModdleParser.parseProcess` at a given fuel. -/
def parseProcess (doc : Doc) (fuel : Nat) (st : St) (p : Element) : ResP :=
  (interp doc fuel).pp st p

/-- `BpmnModdleParser.parseProcessFlowUntilElement` at a given fuel. -/
def parseProcessFlowUntilElement (doc : Doc) (fuel : Nat) (st : St)
    (startElement : Option Element) (terminationType : String) : ResL :=
  (interp doc fuel).pfu st startElement terminationType

/-- The `while` loop of `parseProcessFlowUntilElement` at a given fuel,
with `acc` the `parsedProcess` accumulator and `next` the
`nextElementInFlow` variable. -/
def flowLoop (doc : Doc) (fuel : Nat) (st : St) (acc : List PTree)
    (next : Option Element) (terminationType : String) : ResL :=
  (interp doc fuel).floop st acc next terminationType

/-- `BpmnModdleParser.parseProcessSegment` at a given fuel. -/
def parseProcessSegment (doc : Doc) (fuel : Nat) (st : St) (cur : Element) : ResP :=
  (interp doc fuel).seg st cur

/-- `BpmnModdleParser.parseSplittedControlflow` at a given fuel. -/
def parseSplittedControlflow (doc : Doc) (fuel : Nat) (st : St) (gw : Element) : ResP :=
  (interp doc fuel).splitFlow st gw

/-- The branch `forEach` of `parseSplittedControlflow` at a given fuel;
`edges` are the remaining outgoing sequence-flow ids of the gateway and
`tt` the gateway's own `$type` (the termination kind of each branch walk). -/
def parseBranches (doc : Doc) (fuel : Nat) (st : St) (edges : List String)
    (tt : String) : ResB :=
  (interp doc fuel).branches st edges tt

/-- `BpmnModdleParser.parseBpmnModdle` (lines 24-40): run `parseProcess` on
`rootElements[0]` and return the tree together with (a snapshot of) the
`processTreeNodes` table.  `st` is the table the parser instance holds when
the call starts (`{}` for a fresh instance). -/
def parseBpmnModdle (doc : Doc) (fuel : Nat) (st : St) :
    Except Err (PTree × St) × St :=
  match doc.rootElements.head? with
  | none => (.error .typeError, st)
  | some rid =>
    match doc.find rid with
    | none => (.error .danglingRef, st)
    | some proc =>
      match parseProcess doc fuel st proc with
      | (.error e, st') => (.error e, st')
      | (.ok (tree, _last), st') => (.ok (tree, st'), st')

/-! ## Unfolding equations

The interpreter is defined by structural recursion on the fuel, so each
wrapper satisfies a definitional unfolding equation at fuel `0` and at fuel
`f+1`.  All later proofs work with these equations. -/

theorem parseProcess_zero (doc : Doc) (st : St) (p : Element) :
    parseProcess doc 0 st p = (.error .fuelOut, st) := rfl

theorem parseProcessFlowUntilElement_zero (doc : Doc) (st : St)
    (s : Option Element) (tt : String) :
    parseProcessFlowUntilElement doc 0 st s tt = (.error .fuelOut, st) := rfl

theorem flowLoop_zero (doc : Doc) (st : St) (acc : List PTree)
    (next : Option Element) (tt : String) :
    flowLoop doc 0 st acc next tt = (.error .fuelOut, st) := rfl

theorem parseProcessSegment_zero (doc : Doc) (st : St) (cur : Element) :
    parseProcessSegment doc 0 st cur = (.error .fuelOut, st) := rfl

theorem parseSplittedControlflow_zero (doc : Doc) (st : St) (gw : Element) :
    parseSplittedControlflow doc 0 st gw = (.error .fuelOut, st) := rfl

theorem parseBranches_zero (doc : Doc) (st : St) (edges : List String) (tt : String) :
    parseBranches doc 0 st edges tt = (.error .fuelOut, st) := rfl

theorem parseProcessSegment_succ (doc : Doc) (f : Nat) (st : St) (cur : Element) :
    parseProcessSegment doc (f + 1) st cur =
      (if cur.type == "bpmn:Task" then
        match addProcessNodeInfo st cur with
        | (.error e, st') => (.error e, st')
        | (.ok _, st') => (.ok (.leaf cur.id, some cur), st')
      else if cur.type == "bpmn:ParallelGateway" || cur.type == "bpmn:ExclusiveGateway" then
        parseSplittedControlflow doc f st cur
      else if cur.type == "bpmn:SubProcess" then
        parseProcess doc f st cur
      else
        (.ok (.leaf "", none), st)) := rfl

theorem flowLoop_succ (doc : Doc) (f : Nat) (st : St) (acc : List PTree)
    (next : Option Element) (tt : String) :
    flowLoop doc (f + 1) st acc next tt =
      (match next with
      | none => (.ok (acc, none), st)
      | some cur =>
        if cur.type == tt then (.ok (acc, some cur), st)
        else
          match parseProcessSegment doc (f + 1) st cur with
          | (.error e, st') => (.error e, st')
          | (.ok (treePart, lastElement), st') =>
            let acc' := acc ++ [treePart]
            match lastElement with
            | none => (.ok (acc', none), st')
            | some le =>
              match le.outgoing with
              | none => (.ok (acc', none), st')
              | some [] => (.error .typeError, st')
              | some (eid :: _) =>
                match doc.find eid with
                | none => (.error .danglingRef, st')
                | some edge =>
                  match edge.targetRef with
                  | none => (.ok (acc', none), st')
                  | some tid =>
                    match doc.find tid with
                    | none => (.error .danglingRef, st')
                    | some tgt => flowLoop doc f st' acc' (some tgt) tt) := rfl

theorem parseProcessFlowUntilElement_succ (doc : Doc) (f : Nat) (st : St)
    (s : Option Element) (tt : String) :
    parseProcessFlowUntilElement doc (f + 1) st s tt =
      (match flowLoop doc (f + 1) st [] s tt with
      | (.error e, st') => (.error e, st')
      | (.ok (parsedProcess, next), st') =>
        if parsedProcess.length == 1 then (.ok (parsedProcess, next), st')
        else (.ok ([.node "Flow" parsedProcess], next), st')) := rfl

theorem parseBranches_succ (doc : Doc) (f : Nat) (st : St) (edges : List String)
    (tt : String) :
    parseBranches doc (f + 1) st edges tt =
      (match edges with
      | [] => (.ok ([], []), st)
      | eid :: rest =>
        match doc.find eid with
        | none => (.error .danglingRef, st)
        | some branch =>
          let start : Except Err (Option Element) :=
            match branch.targetRef with
            | none => .ok none
            | some tid =>
              match doc.find tid with
              | none => .error .danglingRef
              | some t => .ok (some t)
          match start with
          | .error e => (.error e, st)
          | .ok s =>
            match parseProcessFlowUntilElement doc (f + 1) st s tt with
            | (.error e, st') => (.error e, st')
            | (.ok (parsedFlowBranch, lastElement), st') =>
              let frag : PTree :=
                match parsedFlowBranch with
                | [x] => x
                | l => .arr l
              let newLasts : List Element :=
                match lastElement with
                | some le => [le]
                | none => []
              match parseBranches doc f st' rest tt with
              | (.error e, st'') => (.error e, st'')
              | (.ok (fr, ls), st'') => (.ok (frag :: fr, newLasts ++ ls), st'')) := rfl

theorem parseSplittedControlflow_succ (doc : Doc) (f : Nat) (st : St) (gw : Element) :
    parseSplittedControlflow doc (f + 1) st gw =
      (match gw.outgoing with
      | none => (.error .typeError, st)
      | some edges =>
        match parseBranches doc (f + 1) st edges gw.type with
        | (.error e, st') => (.error e, st')
        | (.ok (frags, lasts), st') =>
          if allSameFirstId lasts then
            match addProcessNodeInfo st' gw with
            | (.error e, st'') => (.error e, st'')
            | (.ok _, st'') => (.ok (.node gw.id frags, lasts.head?), st'')
          else (.error .inconsistentJoin, st')) := rfl

theorem parseProcess_succ (doc : Doc) (f : Nat) (st : St) (p : Element) :
    parseProcess doc (f + 1) st p =
      (match getStartFlowOfProcess doc p with
      | .error e => (.error e, st)
      | .ok none => (.error .malformedGraph, st)
      | .ok (some startFlow) =>
        match startFlow.targetRef with
        | none => (.error .malformedGraph, st)
        | some tid =>
          match doc.find tid with
          | none => (.error .danglingRef, st)
          | some tgt =>
            match parseProcessFlowUntilElement doc (f + 1) st (some tgt) "bpmn:EndEvent" with
            | (.error e, st') => (.error e, st')
            | (.ok (treePart, _last), st') =>
              if (lookupAttr p "rpa:operation").isSome then
                match addProcessNodeInfo st' p with
                | (.error e, st'') => (.error e, st'')
                | (.ok _, st'') => (.ok (.node p.id treePart, some p), st'')
              else
                (.ok (.node "Process" treePart, some p), st')) := rfl

/-! ## Generic lemmas about lookup and the metadata table -/

/-- In a list of elements with pairwise distinct ids, `find?` by id returns
exactly the member carrying that id. -/
theorem find?_eq_of_mem_of_nodup {es : List Element}
    (hnd : (es.map Element.id).Nodup) {e : Element} (he : e ∈ es) :
    es.find? (fun a => a.id == e.id) = some e := by
  induction es with
  | nil => cases he
  | cons h t ih =>
    rcases List.mem_cons.mp he with rfl | ht
    · simp [List.find?]
    · have hne : h.id ≠ e.id := by
        intro hid
        have : e.id ∈ t.map Element.id := List.mem_map_of_mem _ ht
        rw [← hid] at this
        exact (List.nodup_cons.mp hnd).1 this
      have hbeq : (h.id == e.id) = false := beq_eq_false_iff_ne.mpr hne
      simp only [List.find?, hbeq]
      exact ih (List.nodup_cons.mp hnd).2 ht

/-- `Doc.find` on a document with pairwise distinct element ids returns the
unique member with the requested id. -/
theorem Doc.find_eq_of_mem {doc : Doc}
    (hnd : (doc.elements.map Element.id).Nodup) {e : Element}
    (he : e ∈ doc.elements) : doc.find e.id = some e :=
  find?_eq_of_mem_of_nodup hnd he

/-- A successful `Doc.find` returns a member of the document. -/
theorem Doc.find_mem {doc : Doc} {i : String} {e : Element}
    (h : doc.find i = some e) : e ∈ doc.elements :=
  List.mem_of_find?_eq_some h

/-- Whether a key is present in the metadata table. -/
def hasKey (st : St) (k : String) : Bool :=
  st.any (fun p => p.1 == k)

/-- Recording under a fresh key appends the entry. -/
theorem recordInfo_fresh {st : St} {k : String} (v : NodeInfo)
    (h : hasKey st k = false) : recordInfo st k v = st ++ [(k, v)] := by
  have h' : st.any (fun p => p.1 == k) = false := h
  unfold recordInfo
  simp [h']

/-- `recordInfo` makes its key present. -/
theorem hasKey_recordInfo_self (st : St) (k : String) (v : NodeInfo) :
    hasKey (recordInfo st k v) k = true := by
  unfold recordInfo hasKey
  by_cases h : st.any (fun p => p.1 == k)
  · rw [if_pos h]
    rcases List.any_eq_true.mp h with ⟨p, hp, hpk⟩
    refine List.any_eq_true.mpr ⟨(k, v), ?_, by simp⟩
    refine List.mem_map.mpr ⟨p, hp, ?_⟩
    rw [if_pos hpk]
  · rw [if_neg h]
    refine List.any_eq_true.mpr ⟨(k, v), by simp, by simp⟩

/-- `recordInfo` preserves every key already present. -/
theorem hasKey_recordInfo_of_hasKey {st : St} {j : String} (k : String)
    (v : NodeInfo) (h : hasKey st j = true) :
    hasKey (recordInfo st k v) j = true := by
  unfold recordInfo hasKey
  rcases List.any_eq_true.mp h with ⟨p, hp, hpj⟩
  by_cases hk : st.any (fun p => p.1 == k)
  · rw [if_pos hk]
    by_cases hpk : p.1 == k
    · refine List.any_eq_true.mpr ⟨(k, v), List.mem_map.mpr ⟨p, hp, by rw [if_pos hpk]⟩, ?_⟩
      have : p.1 = k := by simpa using hpk
      simpa [← this] using hpj
    · refine List.any_eq_true.mpr ⟨p, List.mem_map.mpr ⟨p, hp, by rw [if_neg hpk]⟩, hpj⟩
  · rw [if_neg hk]
    exact List.any_eq_true.mpr ⟨p, List.mem_append_left _ hp, hpj⟩

/-! ## The family of well-formed linear processes `Start → Task* → End`

`linearDoc tasks` builds the document of a linear process: a start event, a
chain of tasks, each carrying an `rpa:operation` attribute, and an end
event, connected by sequence flows.  Each task is given by its id and its
operation string.  The flow entering task `t` has id `"sf_" ++ t`, the flow
into the end event has id `"sf_end"`; the start event, end event and
process carry the fixed ids `"Start_1"`, `"End_1"`, `"Process_1"`.
Well-formedness of the graph (pairwise distinct element ids, as the data
model requires) is the single hypothesis of the theorems below. -/

/-- A sequence-flow element. -/
def mkFlow (fid src tgt : String) : Element :=
  { id := fid, type := "bpmn:SequenceFlow", sourceRef := some src, targetRef := some tgt }

/-- A task element carrying an `rpa:operation` attribute, whose single
outgoing flow is `nextF`. -/
def mkTask (tid op nextF : String) : Element :=
  { id := tid, type := "bpmn:Task", attrs := [("rpa:operation", op)],
    outgoing := some [nextF] }

/-- The end event (no outgoing property, as bpmn-moddle leaves it unset). -/
def linEnd : Element := { id := "End_1", type := "bpmn:EndEvent" }

/-- Id of the sequence flow leaving the current node, given the remaining
tasks: it enters the next task, or the end event if none remain. -/
def nextFlowId : List (String × String) → String
  | [] => "sf_end"
  | (t, _) :: _ => "sf_" ++ t

/-- The chain of flows and tasks from the node `prev` to the end event. -/
def linChain : String → List (String × String) → List Element
  | prev, [] => [mkFlow "sf_end" prev "End_1", linEnd]
  | prev, (t, op) :: rest =>
    mkFlow ("sf_" ++ t) prev t :: mkTask t op (nextFlowId rest) :: linChain t rest

/-- Ids of the sequence flows of the chain, in flow order (the process's
`flowElements` list; other element kinds are irrelevant to
`getStartFlowOfProcess`, which filters them out). -/
def linFlowIds : List (String × String) → List String
  | [] => ["sf_end"]
  | (t, _) :: rest => ("sf_" ++ t) :: linFlowIds rest

/-- The process element of a linear process (no `rpa:operation` attribute,
so the tree root gets the generic `"Process"` key). -/
def linProcessEl (tasks : List (String × String)) : Element :=
  { id := "Process_1", type := "bpmn:Process", flowElements := linFlowIds tasks }

/-- The start event. -/
def linStart (tasks : List (String × String)) : Element :=
  { id := "Start_1", type := "bpmn:StartEvent", outgoing := some [nextFlowId tasks] }

/-- The document of the linear process `Start → tasks → End`. -/
def linearDoc (tasks : List (String × String)) : Doc :=
  { rootElements := ["Process_1"],
    elements := linProcessEl tasks :: linStart tasks :: linChain "Start_1" tasks }

theorem mem_linChain_task (t op : String) (rest : List (String × String)) :
    ∀ (done : List (String × String)) (prev : String),
    mkTask t op (nextFlowId rest) ∈ linChain prev (done ++ (t, op) :: rest) := by
  intro done
  induction done with
  | nil => intro prev; simp [linChain]
  | cons d ds ih =>
    intro prev
    obtain ⟨dt, dop⟩ := d
    simp only [List.cons_append, linChain, List.mem_cons]
    exact Or.inr (Or.inr (ih dt))

theorem mem_linChain_midflow (t op t' op' : String) (rest : List (String × String)) :
    ∀ (done : List (String × String)) (prev : String),
    mkFlow ("sf_" ++ t') t t' ∈ linChain prev (done ++ (t, op) :: (t', op') :: rest) := by
  intro done
  induction done with
  | nil =>
    intro prev
    simp [linChain]
  | cons d ds ih =>
    intro prev
    obtain ⟨dt, dop⟩ := d
    simp only [List.cons_append, linChain, List.mem_cons]
    exact Or.inr (Or.inr (ih dt))

theorem mem_linChain_endflow (t op : String) :
    ∀ (done : List (String × String)) (prev : String),
    mkFlow "sf_end" t "End_1" ∈ linChain prev (done ++ [(t, op)]) := by
  intro done
  induction done with
  | nil =>
    intro prev
    simp [linChain]
  | cons d ds ih =>
    intro prev
    obtain ⟨dt, dop⟩ := d
    simp only [List.cons_append, linChain, List.mem_cons]
    exact Or.inr (Or.inr (ih dt))

theorem mem_linChain_end (ts : List (String × String)) :
    ∀ prev : String, linEnd ∈ linChain prev ts := by
  induction ts with
  | nil => intro prev; simp [linChain]
  | cons d ds ih =>
    intro prev
    obtain ⟨dt, dop⟩ := d
    simp only [linChain, List.mem_cons]
    exact Or.inr (Or.inr (ih dt))

theorem lin_find_task {tasks done rest : List (String × String)} {t op : String}
    (hnd : ((linearDoc tasks).elements.map Element.id).Nodup)
    (hsplit : tasks = done ++ (t, op) :: rest) :
    (linearDoc tasks).find t = some (mkTask t op (nextFlowId rest)) := by
  have hm : mkTask t op (nextFlowId rest) ∈ (linearDoc tasks).elements :=
    List.mem_cons_of_mem _ (List.mem_cons_of_mem _
      (hsplit ▸ mem_linChain_task t op rest done "Start_1"))
  exact Doc.find_eq_of_mem hnd hm

theorem lin_find_midflow {tasks done rest : List (String × String)}
    {t op t' op' : String}
    (hnd : ((linearDoc tasks).elements.map Element.id).Nodup)
    (hsplit : tasks = done ++ (t, op) :: (t', op') :: rest) :
    (linearDoc tasks).find ("sf_" ++ t') = some (mkFlow ("sf_" ++ t') t t') := by
  have hm : mkFlow ("sf_" ++ t') t t' ∈ (linearDoc tasks).elements :=
    List.mem_cons_of_mem _ (List.mem_cons_of_mem _
      (hsplit ▸ mem_linChain_midflow t op t' op' rest done "Start_1"))
  exact Doc.find_eq_of_mem hnd hm

theorem lin_find_endflow {tasks done : List (String × String)} {t op : String}
    (hnd : ((linearDoc tasks).elements.map Element.id).Nodup)
    (hsplit : tasks = done ++ [(t, op)]) :
    (linearDoc tasks).find "sf_end" = some (mkFlow "sf_end" t "End_1") := by
  have hm : mkFlow "sf_end" t "End_1" ∈ (linearDoc tasks).elements :=
    List.mem_cons_of_mem _ (List.mem_cons_of_mem _
      (hsplit ▸ mem_linChain_endflow t op done "Start_1"))
  exact Doc.find_eq_of_mem hnd hm

theorem lin_find_end {tasks : List (String × String)}
    (hnd : ((linearDoc tasks).elements.map Element.id).Nodup) :
    (linearDoc tasks).find "End_1" = some linEnd := by
  have hm : linEnd ∈ (linearDoc tasks).elements :=
    List.mem_cons_of_mem _ (List.mem_cons_of_mem _ (mem_linChain_end tasks "Start_1"))
  exact Doc.find_eq_of_mem hnd hm

theorem lin_find_process {tasks : List (String × String)}
    (hnd : ((linearDoc tasks).elements.map Element.id).Nodup) :
    (linearDoc tasks).find "Process_1" = some (linProcessEl tasks) := by
  have hm : linProcessEl tasks ∈ (linearDoc tasks).elements := List.mem_cons_self _ _
  exact Doc.find_eq_of_mem hnd hm

theorem lin_find_start {tasks : List (String × String)}
    (hnd : ((linearDoc tasks).elements.map Element.id).Nodup) :
    (linearDoc tasks).find "Start_1" = some (linStart tasks) := by
  have hm : linStart tasks ∈ (linearDoc tasks).elements :=
    List.mem_cons_of_mem _ (List.mem_cons_self _ _)
  exact Doc.find_eq_of_mem hnd hm

/-- `addProcessNodeInfo` on a constructed task records `{label: id, concept: op}`. -/
theorem addProcessNodeInfo_mkTask (st : St) (t op nf : String) :
    addProcessNodeInfo st (mkTask t op nf) =
      (.ok (), recordInfo st t ⟨t, op⟩) := rfl

/-- One `while`-loop iteration over a constructed task: record its metadata,
emit its id as a leaf, and advance along its single outgoing flow. -/
theorem flowLoop_mkTask_step (doc : Doc) (f : Nat) (st : St) (acc : List PTree)
    (tt t op nf tid : String) (edge tgt : Element)
    (h1 : ("bpmn:Task" == tt) = false)
    (h2 : doc.find nf = some edge)
    (h3 : edge.targetRef = some tid)
    (h4 : doc.find tid = some tgt) :
    flowLoop doc (f + 1) st acc (some (mkTask t op nf)) tt =
      flowLoop doc f (recordInfo st t ⟨t, op⟩) (acc ++ [PTree.leaf t]) (some tgt) tt := by
  rw [flowLoop_succ]
  simp only [mkTask, parseProcessSegment_succ]
  simp only [h1, h2, h3, h4]
  simp [addProcessNodeInfo, getProcessNodeInfo, lookupAttr, jsOr]
  simp only [h2, h3, h4]

/-- The `while` loop stops as soon as the current node's `$type` equals the
termination kind, returning the segment built so far and that node. -/
theorem flowLoop_term (doc : Doc) (f : Nat) (st : St) (acc : List PTree)
    (tt : String) (cur : Element) (h : (cur.type == tt) = true) :
    flowLoop doc (f + 1) st acc (some cur) tt = (.ok (acc, some cur), st) := by
  rw [flowLoop_succ]
  simp only [h]
  simp

/-- Walking a linear chain from any of its tasks visits the remaining tasks
in order, records their metadata in discovery order, and stops at the end
event. -/
theorem lin_flowLoop (tasks : List (String × String))
    (hnd : ((linearDoc tasks).elements.map Element.id).Nodup) :
    ∀ (rest done : List (String × String)) (t op : String)
      (acc : List PTree) (st : St) (f : Nat),
      tasks = done ++ (t, op) :: rest →
      rest.length + 2 ≤ f →
      flowLoop (linearDoc tasks) f st acc
          (some (mkTask t op (nextFlowId rest))) "bpmn:EndEvent" =
        (.ok (acc ++ ((t, op) :: rest).map (fun p => PTree.leaf p.1), some linEnd),
         ((t, op) :: rest).foldl (fun s p => recordInfo s p.1 ⟨p.1, p.2⟩) st) := by
  intro rest
  induction rest with
  | nil =>
    intro done t op acc st f hsplit hf
    obtain ⟨f1, rfl⟩ : ∃ f1, f = f1 + 1 + 1 := ⟨f - 2, by omega⟩
    rw [flowLoop_mkTask_step (linearDoc tasks) (f1 + 1) st acc "bpmn:EndEvent" t op
      (nextFlowId []) "End_1" (mkFlow "sf_end" t "End_1") linEnd rfl
      (lin_find_endflow hnd hsplit) rfl (lin_find_end hnd)]
    rw [flowLoop_term (linearDoc tasks) f1 (recordInfo st t ⟨t, op⟩)
      (acc ++ [PTree.leaf t]) "bpmn:EndEvent" linEnd rfl]
    simp
  | cons p2 rest' ih =>
    intro done t op acc st f hsplit hf
    obtain ⟨t2, op2⟩ := p2
    obtain ⟨f1, rfl⟩ : ∃ f1, f = f1 + 1 := ⟨f - 1, by omega⟩
    rw [flowLoop_mkTask_step (linearDoc tasks) f1 st acc "bpmn:EndEvent" t op
      (nextFlowId ((t2, op2) :: rest')) t2 (mkFlow ("sf_" ++ t2) t t2)
      (mkTask t2 op2 (nextFlowId rest')) rfl (lin_find_midflow hnd hsplit) rfl
      (lin_find_task hnd (show tasks = (done ++ [(t, op)]) ++ (t2, op2) :: rest' by
        simpa using hsplit))]
    rw [ih (done ++ [(t, op)]) t2 op2 (acc ++ [PTree.leaf t]) (recordInfo st t ⟨t, op⟩)
      f1 (by simpa using hsplit) (by simp at hf ⊢; omega)]
    simp


theorem lin_find_endflow_nil
    (hnd : ((linearDoc []).elements.map Element.id).Nodup) :
    (linearDoc []).find "sf_end" = some (mkFlow "sf_end" "Start_1" "End_1") := by
  have hm : mkFlow "sf_end" "Start_1" "End_1" ∈ (linearDoc []).elements := by
    simp [linearDoc, linChain]
  exact Doc.find_eq_of_mem hnd hm

theorem lin_find_firstflow {tasks rest : List (String × String)} {t op : String}
    (hnd : ((linearDoc tasks).elements.map Element.id).Nodup)
    (hsplit : tasks = (t, op) :: rest) :
    (linearDoc tasks).find ("sf_" ++ t) = some (mkFlow ("sf_" ++ t) "Start_1" t) := by
  have hm : mkFlow ("sf_" ++ t) "Start_1" t ∈ (linearDoc tasks).elements := by
    subst hsplit
    simp [linearDoc, linChain]
  exact Doc.find_eq_of_mem hnd hm

def firstTarget : List (String × String) → String
  | [] => "End_1"
  | (t, _) :: _ => t

theorem lin_getStartFlow (tasks : List (String × String))
    (hnd : ((linearDoc tasks).elements.map Element.id).Nodup) :
    getStartFlowOfProcess (linearDoc tasks) (linProcessEl tasks) =
      .ok (some (mkFlow (nextFlowId tasks) "Start_1" (firstTarget tasks))) := by
  have hstart : (linearDoc tasks).find "Start_1" = some (linStart tasks) :=
    lin_find_start hnd
  cases tasks with
  | nil =>
    have h1 := lin_find_endflow_nil hnd
    unfold getStartFlowOfProcess
    simp only [linProcessEl, linFlowIds, List.filterMap_cons, List.filterMap_nil, h1]
    rw [List.filter_cons_of_pos (by simp [mkFlow])]
    unfold findStartFlow
    simp only [mkFlow, hstart]
    simp [linStart, nextFlowId, firstTarget]
  | cons p rest =>
    obtain ⟨t, op⟩ := p
    have h1 := lin_find_firstflow hnd (rfl : (t, op) :: rest = (t, op) :: rest)
    unfold getStartFlowOfProcess
    simp only [linProcessEl, linFlowIds, List.filterMap_cons, h1]
    rw [List.filter_cons_of_pos (by simp [mkFlow])]
    unfold findStartFlow
    simp only [mkFlow, hstart]
    simp [linStart, nextFlowId, firstTarget]

theorem foldl_recordInfo_append :
    ∀ (l : List (String × String)) (st : St),
      (l.map Prod.fst).Nodup →
      (∀ p ∈ l, hasKey st p.1 = false) →
      l.foldl (fun s p => recordInfo s p.1 ⟨p.1, p.2⟩) st =
        st ++ l.map (fun p => (p.1, (⟨p.1, p.2⟩ : NodeInfo))) := by
  intro l
  induction l with
  | nil => intro st _ _; simp
  | cons p rest ih =>
    intro st hnd hfresh
    obtain ⟨t, op⟩ := p
    have hnd' : (rest.map Prod.fst).Nodup := (List.nodup_cons.mp (by simpa using hnd)).2
    have hnotin : t ∉ rest.map Prod.fst := (List.nodup_cons.mp (by simpa using hnd)).1
    have h1 : recordInfo st t ⟨t, op⟩ = st ++ [(t, ⟨t, op⟩)] :=
      recordInfo_fresh _ (hfresh (t, op) (List.mem_cons_self _ _))
    have hfresh' : ∀ q ∈ rest, hasKey (st ++ [(t, (⟨t, op⟩ : NodeInfo))]) q.1 = false := by
      intro q hq
      have hq1 : hasKey st q.1 = false := hfresh q (List.mem_cons_of_mem _ hq)
      have hq2 : q.1 ≠ t := by
        intro h
        exact hnotin (h ▸ List.mem_map_of_mem _ hq)
      unfold hasKey at hq1 ⊢
      simp only [List.any_append, hq1]
      simp [Ne.symm hq2]
    have h2 := ih (st ++ [(t, ⟨t, op⟩)]) hnd' hfresh'
    simp only [List.foldl_cons, h1, h2]
    simp

theorem linChain_ids (ts : List (String × String)) :
    ∀ prev : String, (linChain prev ts).map Element.id =
      (ts.flatMap (fun p => ["sf_" ++ p.1, p.1])) ++ ["sf_end", "End_1"] := by
  induction ts with
  | nil => intro prev; simp [linChain, mkFlow, linEnd]
  | cons p rest ih =>
    intro prev
    obtain ⟨t, op⟩ := p
    simp only [linChain, List.map_cons, ih t]
    simp [mkFlow, mkTask]

theorem tasks_fst_sublist (ts : List (String × String)) :
    (ts.map Prod.fst).Sublist (ts.flatMap (fun p => ["sf_" ++ p.1, p.1])) := by
  induction ts with
  | nil => simp
  | cons p rest ih =>
    obtain ⟨t, op⟩ := p
    simp only [List.map_cons, List.flatMap_cons]
    exact List.Sublist.cons _ (List.Sublist.cons₂ t ih)

theorem lin_tasks_nodup {tasks : List (String × String)}
    (hnd : ((linearDoc tasks).elements.map Element.id).Nodup) :
    (tasks.map Prod.fst).Nodup := by
  have hsub : (tasks.map Prod.fst).Sublist ((linChain "Start_1" tasks).map Element.id) := by
    rw [linChain_ids tasks "Start_1"]
    exact List.Sublist.trans (tasks_fst_sublist tasks) (List.sublist_append_left _ _)
  have hchain : ((linChain "Start_1" tasks).map Element.id).Nodup := by
    have heq : (linearDoc tasks).elements.map Element.id =
        "Process_1" :: "Start_1" :: (linChain "Start_1" tasks).map Element.id := by
      simp [linearDoc, linProcessEl, linStart]
    rw [heq] at hnd
    exact (List.nodup_cons.mp (List.nodup_cons.mp hnd).2).2
  exact hchain.sublist hsub

theorem lin_freshKeys (tasks : List (String × String)) :
    ∀ p ∈ tasks, hasKey ([] : St) p.1 = false := by
  intro p _
  rfl

/-- Full computation of the conversion of a linear process. -/
theorem lin_parseBpmnModdle_eq (tasks : List (String × String))
    (hnd : ((linearDoc tasks).elements.map Element.id).Nodup) :
    parseBpmnModdle (linearDoc tasks) (tasks.length + 3) [] =
      (let leaves := tasks.map (fun p => PTree.leaf p.1)
       let segment := if leaves.length == 1 then leaves else [PTree.node "Flow" leaves]
       let meta : St := tasks.map (fun p => (p.1, ⟨p.1, p.2⟩))
       (.ok (.node "Process" segment, meta), meta)) := by
  cases tasks with
  | nil => exact rfl
  | cons p rest =>
    obtain ⟨t, op⟩ := p
    have hproc : (linearDoc ((t, op) :: rest)).find "Process_1" =
        some (linProcessEl ((t, op) :: rest)) := lin_find_process hnd
    have htask : (linearDoc ((t, op) :: rest)).find t =
        some (mkTask t op (nextFlowId rest)) :=
      lin_find_task hnd (show (t, op) :: rest = [] ++ (t, op) :: rest by simp)
    have hloop := lin_flowLoop ((t, op) :: rest) hnd rest [] t op [] []
      (((t, op) :: rest).length + 2 + 1) rfl (by simp)
    unfold parseBpmnModdle
    simp only [show (linearDoc ((t, op) :: rest)).rootElements.head? =
      some "Process_1" from rfl, hproc]
    rw [show ((t, op) :: rest).length + 3 = (((t, op) :: rest).length + 2) + 1 from rfl]
    rw [parseProcess_succ]
    simp only [lin_getStartFlow _ hnd, mkFlow, firstTarget, htask]
    rw [parseProcessFlowUntilElement_succ]
    simp only [hloop]
    have hmeta : (((t, op) :: rest).foldl (fun s p => recordInfo s p.1 ⟨p.1, p.2⟩) []) =
        ((t, op) :: rest).map (fun p => (p.1, (⟨p.1, p.2⟩ : NodeInfo))) := by
      rw [foldl_recordInfo_append ((t, op) :: rest) [] (lin_tasks_nodup hnd)
        (fun p _ => rfl)]
      simp
    simp only [hmeta]
    simp only [lookupAttr, linProcessEl]
    by_cases hr : rest = [] <;> simp [hr]

/-- C1: for every well-formed linear process `Start → Task* → End` whose
tasks all carry an `rpa:operation` attribute (well-formed = pairwise
distinct element ids), the conversion returns the tree
`{"Process": [t]}` with `t` the single task leaf when exactly one task
exists, and `{"Process": [{"Flow": [task ids in visiting order]}]}`
otherwise, together with the metadata table mapping each task id to
`{label: id, concept: operation}`.  Instantiated at
`[("A", "click")]` this is the spec's example
`{"Process": ["A"]}` / `{"A": {label: "A", concept: "click"}}`. -/
theorem C1_linear_process_tree (tasks : List (String × String))
    (hnd : ((linearDoc tasks).elements.map Element.id).Nodup) :
    parseBpmnModdle (linearDoc tasks) (tasks.length + 3) [] =
      (let leaves := tasks.map (fun p => PTree.leaf p.1)
       let segment := if leaves.length == 1 then leaves else [PTree.node "Flow" leaves]
       let meta : St := tasks.map (fun p => (p.1, ⟨p.1, p.2⟩))
       (.ok (.node "Process" segment, meta), meta)) :=
  lin_parseBpmnModdle_eq tasks hnd

/-- Witness for C1 at the spec's example `Start -> A -> End` with operation
`"click"`. -/
theorem C1_linear_process_tree_witness :
    ((linearDoc [("A", "click")]).elements.map Element.id).Nodup ∧
    parseBpmnModdle (linearDoc [("A", "click")]) 4 [] =
      (.ok (.node "Process" [.leaf "A"], [("A", ⟨"A", "click"⟩)]),
       [("A", ⟨"A", "click"⟩)]) :=
  ⟨by decide, C1_linear_process_tree [("A", "click")] (by decide)⟩

/-! ## The family of split/join diamonds

`diamondDoc gwType gwOp bs` is the process `Start → GW → {branches} → Join → End`
where `GW` is a splitting gateway of kind `gwType` (parallel or exclusive)
carrying operation `gwOp`, each branch `(t, op) ∈ bs` is a single task, and
all branches reconverge at the single join `Join_1` of the same kind.  The
join deliberately carries no `rpa:operation` attribute: the walk never
records it. -/

/-- The three elements of one branch: entry flow, task, flow to the join. -/
def diaBranchEls (bs : List (String × String)) : List Element :=
  bs.flatMap (fun p =>
    [mkFlow ("bf_" ++ p.1) "GW_1" p.1,
     mkTask p.1 p.2 ("jf_" ++ p.1),
     mkFlow ("jf_" ++ p.1) p.1 "Join_1"])

/-- The splitting gateway; its outgoing edges list the branches in order. -/
def diaGw (gwType gwOp : String) (bs : List (String × String)) : Element :=
  { id := "GW_1", type := gwType, attrs := [("rpa:operation", gwOp)],
    outgoing := some (bs.map (fun p => "bf_" ++ p.1)) }

/-- The joining gateway of the same kind, without operation attribute. -/
def diaJoin (gwType : String) : Element :=
  { id := "Join_1", type := gwType, outgoing := some ["sf_end"] }

/-- The full diamond document. -/
def diamondDoc (gwType gwOp : String) (bs : List (String × String)) : Doc :=
  { rootElements := ["Process_1"],
    elements :=
      { id := "Process_1", type := "bpmn:Process", flowElements := ["sf_gw"] } ::
      { id := "Start_1", type := "bpmn:StartEvent", outgoing := some ["sf_gw"] } ::
      mkFlow "sf_gw" "Start_1" "GW_1" ::
      diaGw gwType gwOp bs ::
      diaJoin gwType ::
      mkFlow "sf_end" "Join_1" "End_1" ::
      linEnd ::
      diaBranchEls bs }

theorem mem_diaBranchEls {bs done rest : List (String × String)} {t op : String}
    (hsplit : bs = done ++ (t, op) :: rest) :
    mkFlow ("bf_" ++ t) "GW_1" t ∈ diaBranchEls bs ∧
    mkTask t op ("jf_" ++ t) ∈ diaBranchEls bs ∧
    mkFlow ("jf_" ++ t) t "Join_1" ∈ diaBranchEls bs := by
  subst hsplit
  unfold diaBranchEls
  refine ⟨?_, ?_, ?_⟩ <;>
    exact List.mem_flatMap.mpr ⟨(t, op), by simp, by simp⟩

theorem dia_find_task {gwType gwOp : String} {bs done rest : List (String × String)}
    {t op : String}
    (hnd : ((diamondDoc gwType gwOp bs).elements.map Element.id).Nodup)
    (hsplit : bs = done ++ (t, op) :: rest) :
    (diamondDoc gwType gwOp bs).find t = some (mkTask t op ("jf_" ++ t)) := by
  have hm : mkTask t op ("jf_" ++ t) ∈ (diamondDoc gwType gwOp bs).elements := by
    unfold diamondDoc
    simp only [List.mem_cons]
    exact Or.inr (Or.inr (Or.inr (Or.inr (Or.inr (Or.inr (Or.inr
      (mem_diaBranchEls hsplit).2.1))))))
  exact Doc.find_eq_of_mem hnd hm

theorem dia_find_branchflow {gwType gwOp : String} {bs done rest : List (String × String)}
    {t op : String}
    (hnd : ((diamondDoc gwType gwOp bs).elements.map Element.id).Nodup)
    (hsplit : bs = done ++ (t, op) :: rest) :
    (diamondDoc gwType gwOp bs).find ("bf_" ++ t) =
      some (mkFlow ("bf_" ++ t) "GW_1" t) := by
  have hm : mkFlow ("bf_" ++ t) "GW_1" t ∈ (diamondDoc gwType gwOp bs).elements := by
    unfold diamondDoc
    simp only [List.mem_cons]
    exact Or.inr (Or.inr (Or.inr (Or.inr (Or.inr (Or.inr (Or.inr
      (mem_diaBranchEls hsplit).1))))))
  exact Doc.find_eq_of_mem hnd hm

theorem dia_find_joinflow {gwType gwOp : String} {bs done rest : List (String × String)}
    {t op : String}
    (hnd : ((diamondDoc gwType gwOp bs).elements.map Element.id).Nodup)
    (hsplit : bs = done ++ (t, op) :: rest) :
    (diamondDoc gwType gwOp bs).find ("jf_" ++ t) =
      some (mkFlow ("jf_" ++ t) t "Join_1") := by
  have hm : mkFlow ("jf_" ++ t) t "Join_1" ∈ (diamondDoc gwType gwOp bs).elements := by
    unfold diamondDoc
    simp only [List.mem_cons]
    exact Or.inr (Or.inr (Or.inr (Or.inr (Or.inr (Or.inr (Or.inr
      (mem_diaBranchEls hsplit).2.2))))))
  exact Doc.find_eq_of_mem hnd hm

theorem dia_find_join {gwType gwOp : String} {bs : List (String × String)}
    (hnd : ((diamondDoc gwType gwOp bs).elements.map Element.id).Nodup) :
    (diamondDoc gwType gwOp bs).find "Join_1" = some (diaJoin gwType) := by
  have hm : diaJoin gwType ∈ (diamondDoc gwType gwOp bs).elements := by
    unfold diamondDoc
    simp
  exact Doc.find_eq_of_mem hnd hm

theorem dia_find_gw {gwType gwOp : String} {bs : List (String × String)}
    (hnd : ((diamondDoc gwType gwOp bs).elements.map Element.id).Nodup) :
    (diamondDoc gwType gwOp bs).find "GW_1" = some (diaGw gwType gwOp bs) := by
  have hm : diaGw gwType gwOp bs ∈ (diamondDoc gwType gwOp bs).elements := by
    unfold diamondDoc
    simp
  exact Doc.find_eq_of_mem hnd hm

theorem dia_find_endflow {gwType gwOp : String} {bs : List (String × String)}
    (hnd : ((diamondDoc gwType gwOp bs).elements.map Element.id).Nodup) :
    (diamondDoc gwType gwOp bs).find "sf_end" =
      some (mkFlow "sf_end" "Join_1" "End_1") := by
  have hm : mkFlow "sf_end" "Join_1" "End_1" ∈ (diamondDoc gwType gwOp bs).elements := by
    unfold diamondDoc
    simp
  exact Doc.find_eq_of_mem hnd hm

theorem dia_find_end {gwType gwOp : String} {bs : List (String × String)}
    (hnd : ((diamondDoc gwType gwOp bs).elements.map Element.id).Nodup) :
    (diamondDoc gwType gwOp bs).find "End_1" = some linEnd := by
  have hm : linEnd ∈ (diamondDoc gwType gwOp bs).elements := by
    unfold diamondDoc
    simp
  exact Doc.find_eq_of_mem hnd hm

theorem dia_find_process {gwType gwOp : String} {bs : List (String × String)}
    (hnd : ((diamondDoc gwType gwOp bs).elements.map Element.id).Nodup) :
    (diamondDoc gwType gwOp bs).find "Process_1" =
      some { id := "Process_1", type := "bpmn:Process", flowElements := ["sf_gw"] } := by
  have hm : ({ id := "Process_1", type := "bpmn:Process", flowElements := ["sf_gw"] }
      : Element) ∈ (diamondDoc gwType gwOp bs).elements := by
    unfold diamondDoc
    simp
  exact Doc.find_eq_of_mem hnd hm

theorem dia_find_start {gwType gwOp : String} {bs : List (String × String)}
    (hnd : ((diamondDoc gwType gwOp bs).elements.map Element.id).Nodup) :
    (diamondDoc gwType gwOp bs).find "Start_1" =
      some { id := "Start_1", type := "bpmn:StartEvent", outgoing := some ["sf_gw"] } := by
  have hm : ({ id := "Start_1", type := "bpmn:StartEvent", outgoing := some ["sf_gw"] }
      : Element) ∈ (diamondDoc gwType gwOp bs).elements := by
    unfold diamondDoc
    simp
  exact Doc.find_eq_of_mem hnd hm

theorem dia_find_startflow {gwType gwOp : String} {bs : List (String × String)}
    (hnd : ((diamondDoc gwType gwOp bs).elements.map Element.id).Nodup) :
    (diamondDoc gwType gwOp bs).find "sf_gw" =
      some (mkFlow "sf_gw" "Start_1" "GW_1") := by
  have hm : mkFlow "sf_gw" "Start_1" "GW_1" ∈ (diamondDoc gwType gwOp bs).elements := by
    unfold diamondDoc
    simp
  exact Doc.find_eq_of_mem hnd hm

/-- A gateway kind is one of the two supported splitting kinds. -/
def isGatewayKind (gwType : String) : Prop :=
  gwType = "bpmn:ParallelGateway" ∨ gwType = "bpmn:ExclusiveGateway"

theorem dia_branch_walk {gwType gwOp : String} {bs done rest : List (String × String)}
    {t op : String}
    (hnd : ((diamondDoc gwType gwOp bs).elements.map Element.id).Nodup)
    (hga : isGatewayKind gwType)
    (hsplit : bs = done ++ (t, op) :: rest) (f : Nat) (st : St) :
    parseProcessFlowUntilElement (diamondDoc gwType gwOp bs) (f + 1 + 1) st
        (some (mkTask t op ("jf_" ++ t))) gwType =
      (.ok ([PTree.leaf t], some (diaJoin gwType)), recordInfo st t ⟨t, op⟩) := by
  have h1 : ("bpmn:Task" == gwType) = false := by
    rcases hga with h | h <;> subst h <;> rfl
  have hterm : ((diaJoin gwType).type == gwType) = true := by
    simp [diaJoin]
  rw [parseProcessFlowUntilElement_succ]
  rw [flowLoop_mkTask_step (diamondDoc gwType gwOp bs) (f + 1) st [] gwType t op
    ("jf_" ++ t) "Join_1" (mkFlow ("jf_" ++ t) t "Join_1") (diaJoin gwType) h1
    (dia_find_joinflow hnd hsplit) rfl (dia_find_join hnd)]
  rw [flowLoop_term _ f _ _ _ _ hterm]
  simp

theorem dia_branches_fold {gwType gwOp : String} {bs : List (String × String)}
    (hnd : ((diamondDoc gwType gwOp bs).elements.map Element.id).Nodup)
    (hga : isGatewayKind gwType) :
    ∀ (rem done : List (String × String)) (st : St) (f : Nat),
      bs = done ++ rem →
      rem.length + 2 ≤ f →
      parseBranches (diamondDoc gwType gwOp bs) f st
          (rem.map (fun p => "bf_" ++ p.1)) gwType =
        (.ok (rem.map (fun p => PTree.leaf p.1), rem.map (fun _ => diaJoin gwType)),
         rem.foldl (fun s p => recordInfo s p.1 ⟨p.1, p.2⟩) st) := by
  intro rem
  induction rem with
  | nil =>
    intro done st f _ hf
    obtain ⟨f1, rfl⟩ : ∃ f1, f = f1 + 1 := ⟨f - 1, by omega⟩
    rw [parseBranches_succ]
    simp
  | cons p rem' ih =>
    intro done st f hsplit hf
    obtain ⟨t, op⟩ := p
    obtain ⟨f2, rfl⟩ : ∃ f2, f = f2 + 1 + 1 := ⟨f - 2, by omega⟩
    rw [parseBranches_succ]
    simp only [List.map_cons]
    simp only [dia_find_branchflow hnd hsplit, mkFlow, dia_find_task hnd hsplit]
    rw [dia_branch_walk hnd hga hsplit f2 st]
    have hih := ih (done ++ [(t, op)]) (recordInfo st t ⟨t, op⟩) (f2 + 1)
      (by simpa using hsplit) (by simp at hf ⊢; omega)
    simp only [hih]
    simp

/-- One `while`-loop iteration whose segment succeeds with a last element
that has a first outgoing flow to a resolvable target: append the fragment
and advance. -/
theorem flowLoop_seg_step (doc : Doc) (f : Nat) (st : St) (acc : List PTree)
    (tt : String) (cur : Element) (tp : PTree) (le : Element) (st' : St)
    (eid : String) (erest : List String) (edge : Element) (tid : String)
    (tgt : Element)
    (h0 : (cur.type == tt) = false)
    (hseg : parseProcessSegment doc (f + 1) st cur = (.ok (tp, some le), st'))
    (hout : le.outgoing = some (eid :: erest))
    (hedge : doc.find eid = some edge)
    (htr : edge.targetRef = some tid)
    (htgt : doc.find tid = some tgt) :
    flowLoop doc (f + 1) st acc (some cur) tt =
      flowLoop doc f st' (acc ++ [tp]) (some tgt) tt := by
  rw [flowLoop_succ]
  simp only [h0, hseg, hout, hedge, htr, htgt]
  simp

/-- All elements of a constant list share the first element's id. -/
theorem allSameFirstId_const {α : Type} (e : Element) (l : List α) :
    allSameFirstId (l.map (fun _ => e)) = true := by
  cases l with
  | nil => rfl
  | cons a l' => simp [allSameFirstId]

theorem hasKey_false_of_forall {st : St} {k : String}
    (h : ∀ q ∈ st, q.1 ≠ k) : hasKey st k = false := by
  unfold hasKey
  rw [List.any_eq_false]
  intro q hq
  simpa using h q hq

theorem dia_branch_ids (bs : List (String × String)) :
    (diaBranchEls bs).map Element.id =
      bs.flatMap (fun p => ["bf_" ++ p.1, p.1, "jf_" ++ p.1]) := by
  unfold diaBranchEls
  induction bs with
  | nil => rfl
  | cons p rest ih =>
    obtain ⟨t, op⟩ := p
    simp only [List.flatMap_cons, List.map_append, ih]
    simp [mkFlow, mkTask]

theorem dia_fst_sublist (bs : List (String × String)) :
    (bs.map Prod.fst).Sublist
      (bs.flatMap (fun p => ["bf_" ++ p.1, p.1, "jf_" ++ p.1])) := by
  induction bs with
  | nil => simp
  | cons p rest ih =>
    obtain ⟨t, op⟩ := p
    simp only [List.map_cons, List.flatMap_cons]
    exact List.Sublist.cons _ (List.Sublist.cons₂ t (List.Sublist.cons _ ih))

theorem dia_ids_shape (gwType gwOp : String) (bs : List (String × String)) :
    (diamondDoc gwType gwOp bs).elements.map Element.id =
      "Process_1" :: "Start_1" :: "sf_gw" :: "GW_1" :: "Join_1" :: "sf_end" ::
        "End_1" :: (diaBranchEls bs).map Element.id := by
  simp [diamondDoc, diaGw, diaJoin, mkFlow, linEnd]

theorem dia_bs_nodup {gwType gwOp : String} {bs : List (String × String)}
    (hnd : ((diamondDoc gwType gwOp bs).elements.map Element.id).Nodup) :
    (bs.map Prod.fst).Nodup := by
  rw [dia_ids_shape] at hnd
  have h1 : ((diaBranchEls bs).map Element.id).Nodup :=
    (List.nodup_cons.mp (List.nodup_cons.mp (List.nodup_cons.mp (List.nodup_cons.mp
      (List.nodup_cons.mp (List.nodup_cons.mp (List.nodup_cons.mp hnd).2).2).2).2).2).2).2
  rw [dia_branch_ids] at h1
  exact h1.sublist (dia_fst_sublist bs)

theorem dia_gw_fresh {gwType gwOp : String} {bs : List (String × String)}
    (hnd : ((diamondDoc gwType gwOp bs).elements.map Element.id).Nodup) :
    "GW_1" ∉ bs.map Prod.fst := by
  rw [dia_ids_shape] at hnd
  have h4 := List.nodup_cons.mp (List.nodup_cons.mp (List.nodup_cons.mp hnd).2).2
  intro hmem
  apply (List.nodup_cons.mp h4.2).1
  have : "GW_1" ∈ (diaBranchEls bs).map Element.id := by
    rw [dia_branch_ids]
    rcases List.mem_map.mp hmem with ⟨p, hp, hpeq⟩
    exact List.mem_flatMap.mpr ⟨p, hp, by simp [hpeq]⟩
  simp [this]

theorem dia_getStartFlow {gwType gwOp : String} {bs : List (String × String)}
    (hnd : ((diamondDoc gwType gwOp bs).elements.map Element.id).Nodup) :
    getStartFlowOfProcess (diamondDoc gwType gwOp bs)
        { id := "Process_1", type := "bpmn:Process", flowElements := ["sf_gw"] } =
      .ok (some (mkFlow "sf_gw" "Start_1" "GW_1")) := by
  unfold getStartFlowOfProcess
  simp only [List.filterMap_cons, List.filterMap_nil, dia_find_startflow hnd]
  rw [List.filter_cons_of_pos (by simp [mkFlow])]
  unfold findStartFlow
  simp only [mkFlow, dia_find_start hnd]
  simp

theorem dia_meta_eq {gwType gwOp : String} {bs : List (String × String)}
    (hnd : ((diamondDoc gwType gwOp bs).elements.map Element.id).Nodup) :
    recordInfo (bs.foldl (fun s p => recordInfo s p.1 ⟨p.1, p.2⟩) []) "GW_1"
        ⟨"GW_1", gwOp⟩ =
      bs.map (fun p => (p.1, (⟨p.1, p.2⟩ : NodeInfo))) ++
        [("GW_1", (⟨"GW_1", gwOp⟩ : NodeInfo))] := by
  have h0 : bs.foldl (fun s p => recordInfo s p.1 ⟨p.1, p.2⟩) [] =
      bs.map (fun p => (p.1, (⟨p.1, p.2⟩ : NodeInfo))) :=
    foldl_recordInfo_append bs [] (dia_bs_nodup hnd) (fun p _ => rfl)
  rw [h0, recordInfo_fresh]
  apply hasKey_false_of_forall
  intro q hq
  rcases List.mem_map.mp hq with ⟨p, hp, rfl⟩
  intro hcontra
  exact dia_gw_fresh hnd (hcontra ▸ List.mem_map_of_mem _ hp)

theorem dia_split_eq {gwType gwOp : String} {bs : List (String × String)}
    (hnd : ((diamondDoc gwType gwOp bs).elements.map Element.id).Nodup)
    (hga : isGatewayKind gwType) {b0 : String × String} {bs0 : List (String × String)}
    (hbs : bs = b0 :: bs0) :
    parseSplittedControlflow (diamondDoc gwType gwOp bs) (bs.length + 4) []
        (diaGw gwType gwOp bs) =
      (.ok (.node "GW_1" (bs.map (fun p => PTree.leaf p.1)), some (diaJoin gwType)),
       bs.map (fun p => (p.1, (⟨p.1, p.2⟩ : NodeInfo))) ++
         [("GW_1", (⟨"GW_1", gwOp⟩ : NodeInfo))]) := by
  rw [show bs.length + 4 = (bs.length + 3) + 1 from rfl]
  rw [parseSplittedControlflow_succ]
  have hout : (diaGw gwType gwOp bs).outgoing = some (bs.map (fun p => "bf_" ++ p.1)) := rfl
  have hbr := dia_branches_fold hnd hga bs [] [] ((bs.length + 3) + 1) (by simp) (by omega)
  simp only [hout, diaGw, hbr]
  simp only [allSameFirstId_const]
  simp only [addProcessNodeInfo, getProcessNodeInfo, lookupAttr, jsOr]
  have hfind : Option.map (fun p => p.2)
      (List.find? (fun p => p.1 == "rpa:operation") [("rpa:operation", gwOp)]) =
      some gwOp := rfl
  rw [hfind]
  simp only [dia_meta_eq hnd]
  subst hbs
  simp

theorem dia_parseBpmnModdle {gwType gwOp : String} {bs : List (String × String)}
    (hnd : ((diamondDoc gwType gwOp bs).elements.map Element.id).Nodup)
    (hga : isGatewayKind gwType) {b0 : String × String} {bs0 : List (String × String)}
    (hbs : bs = b0 :: bs0) :
    parseBpmnModdle (diamondDoc gwType gwOp bs) (bs.length + 5) [] =
      (.ok (.node "Process" [.node "GW_1" (bs.map (fun p => PTree.leaf p.1))],
        bs.map (fun p => (p.1, (⟨p.1, p.2⟩ : NodeInfo))) ++
          [("GW_1", (⟨"GW_1", gwOp⟩ : NodeInfo))]),
       bs.map (fun p => (p.1, (⟨p.1, p.2⟩ : NodeInfo))) ++
         [("GW_1", (⟨"GW_1", gwOp⟩ : NodeInfo))]) := by
  have h0 : (gwType == "bpmn:EndEvent") = false := by
    rcases hga with h | h <;> subst h <;> rfl
  have hseg : parseProcessSegment (diamondDoc gwType gwOp bs) ((bs.length + 4) + 1) []
      (diaGw gwType gwOp bs) =
      (.ok (.node "GW_1" (bs.map (fun p => PTree.leaf p.1)), some (diaJoin gwType)),
       bs.map (fun p => (p.1, (⟨p.1, p.2⟩ : NodeInfo))) ++
         [("GW_1", (⟨"GW_1", gwOp⟩ : NodeInfo))]) := by
    rw [parseProcessSegment_succ]
    have ht1 : ((diaGw gwType gwOp bs).type == "bpmn:Task") = false := by
      rcases hga with h | h <;> subst h <;> rfl
    have ht2 : (((diaGw gwType gwOp bs).type == "bpmn:ParallelGateway") ||
        ((diaGw gwType gwOp bs).type == "bpmn:ExclusiveGateway")) = true := by
      rcases hga with h | h <;> subst h <;> rfl
    simp only [ht1, ht2]
    exact dia_split_eq hnd hga hbs
  unfold parseBpmnModdle
  simp only [show (diamondDoc gwType gwOp bs).rootElements.head? =
    some "Process_1" from rfl, dia_find_process hnd]
  rw [show bs.length + 5 = (bs.length + 4) + 1 from rfl]
  rw [parseProcess_succ]
  simp only [dia_getStartFlow hnd, mkFlow, dia_find_gw hnd]
  rw [parseProcessFlowUntilElement_succ]
  rw [flowLoop_seg_step (diamondDoc gwType gwOp bs) (bs.length + 4) [] []
    "bpmn:EndEvent" (diaGw gwType gwOp bs)
    (.node "GW_1" (bs.map (fun p => PTree.leaf p.1))) (diaJoin gwType) _
    "sf_end" [] (mkFlow "sf_end" "Join_1" "End_1") "End_1" linEnd
    h0 hseg rfl (dia_find_endflow hnd) rfl (dia_find_end hnd)]
  rw [show bs.length + 4 = (bs.length + 3) + 1 from rfl]
  rw [flowLoop_term _ (bs.length + 3) _ _ "bpmn:EndEvent" linEnd rfl]
  simp [lookupAttr]

theorem parseBranches_succ_nil (doc : Doc) (f : Nat) (st : St) (tt : String) :
    parseBranches doc (f + 1) st [] tt = (.ok ([], []), st) := rfl

theorem parseBranches_succ_cons (doc : Doc) (f : Nat) (st : St) (eid : String)
    (rest : List String) (tt : String) :
    parseBranches doc (f + 1) st (eid :: rest) tt =
      (match doc.find eid with
      | none => (.error .danglingRef, st)
      | some branch =>
        match (match branch.targetRef with
               | none => (Except.ok none : Except Err (Option Element))
               | some tid =>
                 match doc.find tid with
                 | none => .error .danglingRef
                 | some t => .ok (some t)) with
        | .error e => (.error e, st)
        | .ok s =>
          match parseProcessFlowUntilElement doc (f + 1) st s tt with
          | (.error e, st') => (.error e, st')
          | (.ok (parsedFlowBranch, lastElement), st') =>
            match parseBranches doc f st' rest tt with
            | (.error e, st'') => (.error e, st'')
            | (.ok (fr, ls), st'') =>
              (.ok ((match parsedFlowBranch with | [x] => x | l => .arr l) :: fr,
                    (match lastElement with | some le => [le] | none => []) ++ ls),
               st'')) := rfl

theorem parseBranches_length :
    ∀ (edges : List String) (doc : Doc) (f : Nat) (st : St) (tt : String)
      (fr : List PTree) (ls : List Element) (st' : St),
      parseBranches doc f st edges tt = (.ok (fr, ls), st') →
      fr.length = edges.length := by
  intro edges
  induction edges with
  | nil =>
    intro doc f st tt fr ls st' h
    cases f with
    | zero => rw [parseBranches_zero] at h; simp at h
    | succ f1 =>
      rw [parseBranches_succ_nil] at h
      simp at h
      simp [h.1.1]
  | cons e rest ih =>
    intro doc f st tt fr ls st' h
    cases f with
    | zero => rw [parseBranches_zero] at h; simp at h
    | succ f1 =>
      rw [parseBranches_succ_cons] at h
      repeat' split at h
      all_goals simp only [Prod.mk.injEq, Except.ok.injEq, reduceCtorEq,
        false_and, and_false] at h
      all_goals (
        obtain ⟨⟨hfr, hls⟩, hst⟩ := h
        subst hfr
        have hlen := ih doc f1 _ tt _ _ _ (by assumption)
        simp [hlen])

/-- `addProcessNodeInfo` succeeds exactly by recording the element's info. -/
theorem addProcessNodeInfo_ok {st : St} {e : Element} {u : Unit} {st' : St}
    (h : addProcessNodeInfo st e = (.ok u, st')) :
    ∃ info, getProcessNodeInfo e = .ok info ∧ st' = recordInfo st e.id info := by
  unfold addProcessNodeInfo at h
  cases hg : getProcessNodeInfo e with
  | error er => rw [hg] at h; simp at h
  | ok info =>
    rw [hg] at h
    simp only [Prod.mk.injEq] at h
    exact ⟨info, rfl, h.2.symm⟩

/-- Shape of a successful `parseSplittedControlflow`: the branch fold
succeeded, all recorded branch terminals share one id, the gateway's
metadata was recorded, and the tree is the single record keyed by the
gateway's id holding the branch fragments. -/
theorem splitFlow_ok_shape (doc : Doc) (f : Nat) (st : St) (gw : Element)
    (edges : List String) (res : PTree) (last : Option Element) (st' : St)
    (hout : gw.outgoing = some edges)
    (h : parseSplittedControlflow doc (f + 1) st gw = (.ok (res, last), st')) :
    ∃ frags lasts stb info,
      parseBranches doc (f + 1) st edges gw.type = (.ok (frags, lasts), stb) ∧
      res = .node gw.id frags ∧ allSameFirstId lasts = true ∧
      last = lasts.head? ∧ getProcessNodeInfo gw = .ok info ∧
      st' = recordInfo stb gw.id info := by
  rw [parseSplittedControlflow_succ] at h
  simp only [hout] at h
  split at h
  · simp at h
  · rename_i frags lasts stb hbr
    split at h
    · rename_i hsame
      split at h
      · simp at h
      · rename_i u st2 hadd
        simp only [Prod.mk.injEq, Except.ok.injEq] at h
        obtain ⟨⟨hres, hlast⟩, hst⟩ := h
        obtain ⟨info, hinfo, hrec⟩ := addProcessNodeInfo_ok hadd
        exact ⟨frags, lasts, stb, info, hbr, hres.symm, hsame,
          hlast.symm, hinfo, hst ▸ hrec⟩
    · simp at h

/-- Malformed diamond used to exhibit `InconsistentJoin`: branch `A` ends at
join `J1`, branch `B` at a different join `J2` of the same kind. -/
def badJoinDoc : Doc :=
  { rootElements := ["Process_1"],
    elements :=
      [ { id := "Process_1", type := "bpmn:Process", flowElements := ["sf_gw"] },
        { id := "Start_1", type := "bpmn:StartEvent", outgoing := some ["sf_gw"] },
        mkFlow "sf_gw" "Start_1" "GW_1",
        { id := "GW_1", type := "bpmn:ParallelGateway",
          attrs := [("rpa:operation", "par")], outgoing := some ["bf_A", "bf_B"] },
        mkFlow "bf_A" "GW_1" "A",
        mkFlow "bf_B" "GW_1" "B",
        mkTask "A" "a" "jf_A",
        mkTask "B" "b" "jf_B",
        mkFlow "jf_A" "A" "J1",
        mkFlow "jf_B" "B" "J2",
        { id := "J1", type := "bpmn:ParallelGateway", outgoing := some ["sf_end"] },
        { id := "J2", type := "bpmn:ParallelGateway" },
        mkFlow "sf_end" "J1" "End_1",
        linEnd ] }

/-- C2: a successful split resolution yields exactly one tree entry, keyed
by the split node's id, whose value lists exactly one branch fragment per
outgoing edge of the split (first conjunct); on the diamond family
`Start → GW → {task branches} → Join → End` the fragments are the branch
task leaves in the order of the gateway's outgoing edges (second
conjunct). -/
theorem C2_split_keyed_branches :
    (∀ (doc : Doc) (f : Nat) (st : St) (gw : Element) (edges : List String)
       (res : PTree) (last : Option Element) (st' : St),
       gw.outgoing = some edges →
       parseSplittedControlflow doc (f + 1) st gw = (.ok (res, last), st') →
       ∃ frags, res = PTree.node gw.id frags ∧ frags.length = edges.length) ∧
    (∀ (gwType gwOp : String) (bs : List (String × String))
       (b0 : String × String) (bs0 : List (String × String)),
       ((diamondDoc gwType gwOp bs).elements.map Element.id).Nodup →
       isGatewayKind gwType → bs = b0 :: bs0 →
       parseBpmnModdle (diamondDoc gwType gwOp bs) (bs.length + 5) [] =
         (.ok (.node "Process" [.node "GW_1" (bs.map (fun p => PTree.leaf p.1))],
           bs.map (fun p => (p.1, (⟨p.1, p.2⟩ : NodeInfo))) ++
             [("GW_1", (⟨"GW_1", gwOp⟩ : NodeInfo))]),
          bs.map (fun p => (p.1, (⟨p.1, p.2⟩ : NodeInfo))) ++
            [("GW_1", (⟨"GW_1", gwOp⟩ : NodeInfo))])) := by
  constructor
  · intro doc f st gw edges res last st' hout h
    obtain ⟨frags, lasts, stb, info, hbr, hres, -, -, -, -⟩ :=
      splitFlow_ok_shape doc f st gw edges res last st' hout h
    exact ⟨frags, hres,
      parseBranches_length edges doc (f + 1) st gw.type frags lasts stb hbr⟩
  · intro gwType gwOp bs b0 bs0 hnd hga hbs
    exact dia_parseBpmnModdle hnd hga hbs

/-- Witness for C2 at the spec's example
`Start -> Split(P) -> {A, B} -> Join(P) -> End` (here the gateway id is
`GW_1`). -/
theorem C2_split_keyed_branches_witness :
    isGatewayKind "bpmn:ParallelGateway" ∧
    parseBpmnModdle (diamondDoc "bpmn:ParallelGateway" "par" [("A", "a"), ("B", "b")])
        7 [] =
      (.ok (.node "Process" [.node "GW_1" [.leaf "A", .leaf "B"]],
        [("A", ⟨"A", "a"⟩), ("B", ⟨"B", "b"⟩), ("GW_1", ⟨"GW_1", "par"⟩)]),
       [("A", ⟨"A", "a"⟩), ("B", ⟨"B", "b"⟩), ("GW_1", ⟨"GW_1", "par"⟩)]) :=
  ⟨Or.inl rfl,
   C2_split_keyed_branches.2 "bpmn:ParallelGateway" "par" [("A", "a"), ("B", "b")]
     ("A", "a") [("B", "b")] (by decide) (Or.inl rfl) rfl⟩

/-- C3 counterexample: the join gateway of a well-formed diamond carries no
operation attribute, yet conversion succeeds and the metadata table has no
entry for the join — the walk never records join gateways, so the claimed
"fails with MissingOperationBinding exactly when the node lacks an
operation attribute" is false for joins. -/
theorem C3_counterexample :
    lookupAttr (diaJoin "bpmn:ParallelGateway") "rpa:operation" = none ∧
    diaJoin "bpmn:ParallelGateway" ∈
      (diamondDoc "bpmn:ParallelGateway" "par" [("A", "a"), ("B", "b")]).elements ∧
    (parseBpmnModdle (diamondDoc "bpmn:ParallelGateway" "par" [("A", "a"), ("B", "b")])
        7 []).1 =
      .ok (.node "Process" [.node "GW_1" [.leaf "A", .leaf "B"]],
        [("A", ⟨"A", "a"⟩), ("B", ⟨"B", "b"⟩), ("GW_1", ⟨"GW_1", "par"⟩)]) ∧
    hasKey [("A", (⟨"A", "a"⟩ : NodeInfo)), ("B", ⟨"B", "b"⟩),
      ("GW_1", ⟨"GW_1", "par"⟩)] "Join_1" = false := by
  refine ⟨rfl, ?_, rfl, rfl⟩
  unfold diamondDoc
  simp

/-- C3 (amended): every Task and every split gateway is recorded exactly
when it carries an operation attribute — at the recording point the parse
fails with `MissingOperationBinding` precisely when the attribute is
missing, and on success the node has been recorded — and an
operation-bearing (sub)process is recorded on success; join gateways are
not covered (see the counterexample: they are skipped, never recorded, and
their attributes are never checked). -/
theorem C3_missing_operation_binding :
    (∀ e : Element,
       getProcessNodeInfo e = .error .missingOperationBinding ↔
         lookupAttr e "rpa:operation" = none) ∧
    (∀ (st : St) (e : Element), lookupAttr e "rpa:operation" = none →
       addProcessNodeInfo st e = (.error .missingOperationBinding, st)) ∧
    (∀ (doc : Doc) (f : Nat) (st : St) (cur : Element), cur.type = "bpmn:Task" →
       ((parseProcessSegment doc (f + 1) st cur).1 = .error .missingOperationBinding ↔
         lookupAttr cur "rpa:operation" = none)) ∧
    (∀ (doc : Doc) (f : Nat) (st : St) (cur : Element)
       (v : PTree × Option Element) (st' : St), cur.type = "bpmn:Task" →
       parseProcessSegment doc (f + 1) st cur = (.ok v, st') →
       (lookupAttr cur "rpa:operation").isSome ∧ hasKey st' cur.id = true) ∧
    (∀ (doc : Doc) (f : Nat) (st : St) (gw : Element) (edges : List String)
       (v : PTree × Option Element) (st' : St),
       gw.outgoing = some edges →
       parseSplittedControlflow doc (f + 1) st gw = (.ok v, st') →
       (lookupAttr gw "rpa:operation").isSome ∧ hasKey st' gw.id = true) ∧
    (∀ (doc : Doc) (f : Nat) (st : St) (p : Element)
       (v : PTree × Option Element) (st' : St),
       parseProcess doc (f + 1) st p = (.ok v, st') →
       (lookupAttr p "rpa:operation").isSome → hasKey st' p.id = true) := by
  refine ⟨?_, ?_, ?_, ?_, ?_, ?_⟩
  · intro e
    unfold getProcessNodeInfo
    cases h : lookupAttr e "rpa:operation" <;> simp
  · intro st e h
    unfold addProcessNodeInfo getProcessNodeInfo
    rw [h]
  · intro doc f st cur htype
    rw [parseProcessSegment_succ]
    have ht : (cur.type == "bpmn:Task") = true := by simp [htype]
    simp only [ht, if_true]
    unfold addProcessNodeInfo getProcessNodeInfo
    cases h : lookupAttr cur "rpa:operation" <;> simp
  · intro doc f st cur v st' htype h
    rw [parseProcessSegment_succ] at h
    have ht : (cur.type == "bpmn:Task") = true := by simp [htype]
    simp only [ht, if_true] at h
    unfold addProcessNodeInfo getProcessNodeInfo at h
    cases hl : lookupAttr cur "rpa:operation" with
    | none => rw [hl] at h; simp at h
    | some op =>
      rw [hl] at h
      simp only [Prod.mk.injEq] at h
      refine ⟨by simp, ?_⟩
      rw [← h.2]
      exact hasKey_recordInfo_self st cur.id _
  · intro doc f st gw edges v st' hout h
    obtain ⟨res, last⟩ := v
    obtain ⟨frags, lasts, stb, info, hbr, hres, hsame, hlast, hinfo, hst⟩ :=
      splitFlow_ok_shape doc f st gw edges res last st' hout h
    constructor
    · unfold getProcessNodeInfo at hinfo
      cases hl : lookupAttr gw "rpa:operation" with
      | none => rw [hl] at hinfo; simp at hinfo
      | some op => simp
    · rw [hst]
      exact hasKey_recordInfo_self stb gw.id _
  · intro doc f st p v st' h hop
    rw [parseProcess_succ] at h
    split at h
    · simp at h
    · simp at h
    · split at h
      · simp at h
      · split at h
        · simp at h
        · split at h
          · simp at h
          · split at h
            · split at h
              · simp at h
              · rename_i u st2 hadd
                simp only [Prod.mk.injEq, Except.ok.injEq] at h
                obtain ⟨info, hinfo, hrec⟩ := addProcessNodeInfo_ok hadd
                rw [← h.2, hrec]
                exact hasKey_recordInfo_self _ p.id _
            · rename_i hcond
              exact absurd (by simpa using hop) hcond

/-- Witness for C3 (amended): a Task without `rpa:operation` makes the
segment parser fail with `MissingOperationBinding`. -/
theorem C3_missing_operation_binding_witness :
    (parseProcessSegment { rootElements := [], elements := [] } 1 []
      { id := "B", type := "bpmn:Task" }).1 = .error .missingOperationBinding :=
  (C3_missing_operation_binding.2.2.1 { rootElements := [], elements := [] } 0 []
    { id := "B", type := "bpmn:Task" } rfl).mpr rfl

/-- C4: the join-consistency check compares branch terminals by id —
`allSameFirstId` holds exactly when all recorded terminals coincide by id
(first conjunct); when the branch fold succeeds but two terminals differ,
the split resolution fails with `InconsistentJoin` and produces no tree
(second conjunct); and a split resolution can only succeed when all
terminals coincide (third conjunct). -/
theorem C4_inconsistent_join :
    (∀ l : List Element,
       allSameFirstId l = true ↔ ∀ a ∈ l, ∀ b ∈ l, a.id = b.id) ∧
    (∀ (doc : Doc) (f : Nat) (st : St) (gw : Element) (edges : List String)
       (frags : List PTree) (lasts : List Element) (stb : St),
       gw.outgoing = some edges →
       parseBranches doc (f + 1) st edges gw.type = (.ok (frags, lasts), stb) →
       allSameFirstId lasts = false →
       parseSplittedControlflow doc (f + 1) st gw = (.error .inconsistentJoin, stb)) ∧
    (∀ (doc : Doc) (f : Nat) (st : St) (gw : Element) (edges : List String)
       (frags : List PTree) (lasts : List Element) (stb : St)
       (v : PTree × Option Element) (st' : St),
       gw.outgoing = some edges →
       parseBranches doc (f + 1) st edges gw.type = (.ok (frags, lasts), stb) →
       parseSplittedControlflow doc (f + 1) st gw = (.ok v, st') →
       allSameFirstId lasts = true) := by
  refine ⟨?_, ?_, ?_⟩
  · intro l
    cases l with
    | nil => simp [allSameFirstId]
    | cons x xs =>
      simp only [allSameFirstId, List.all_eq_true]
      constructor
      · intro h a ha b hb
        have hax : a.id = x.id := by simpa using h a ha
        have hbx : b.id = x.id := by simpa using h b hb
        rw [hax, hbx]
      · intro h a ha
        simpa using h a ha x (List.mem_cons_self _ _)
  · intro doc f st gw edges frags lasts stb hout hbr hfalse
    rw [parseSplittedControlflow_succ]
    simp only [hout, hbr, hfalse]
    simp
  · intro doc f st gw edges frags lasts stb v st' hout hbr h
    obtain ⟨res, last⟩ := v
    obtain ⟨frags', lasts', stb', info, hbr', -, hsame, -, -, -⟩ :=
      splitFlow_ok_shape doc f st gw edges res last st' hout h
    rw [hbr] at hbr'
    simp only [Prod.mk.injEq, Except.ok.injEq] at hbr'
    rw [hbr'.1.2]
    exact hsame

/-- Witness for C4: in `badJoinDoc` the two branches terminate at the
distinct joins `J1` and `J2`, and the split resolution fails with
`InconsistentJoin` while keeping the metadata recorded so far. -/
theorem C4_inconsistent_join_witness :
    allSameFirstId
      [{ id := "J1", type := "bpmn:ParallelGateway", outgoing := some ["sf_end"] },
       { id := "J2", type := "bpmn:ParallelGateway" }] = false ∧
    parseSplittedControlflow badJoinDoc 5 []
        { id := "GW_1", type := "bpmn:ParallelGateway",
          attrs := [("rpa:operation", "par")], outgoing := some ["bf_A", "bf_B"] } =
      (.error .inconsistentJoin,
       [("A", ⟨"A", "a"⟩), ("B", ⟨"B", "b"⟩)]) :=
  ⟨rfl,
   C4_inconsistent_join.2.1 badJoinDoc 4 []
     { id := "GW_1", type := "bpmn:ParallelGateway",
       attrs := [("rpa:operation", "par")], outgoing := some ["bf_A", "bf_B"] }
     ["bf_A", "bf_B"] [.leaf "A", .leaf "B"]
     [{ id := "J1", type := "bpmn:ParallelGateway", outgoing := some ["sf_end"] },
      { id := "J2", type := "bpmn:ParallelGateway" }]
     [("A", ⟨"A", "a"⟩), ("B", ⟨"B", "b"⟩)] rfl rfl rfl⟩

theorem findStartFlow_ne_mg (doc : Doc) :
    ∀ l : List Element, findStartFlow doc l ≠ .error .malformedGraph := by
  intro l
  induction l with
  | nil => simp [findStartFlow]
  | cons fl rest ih =>
    unfold findStartFlow
    split
    · simp
    · split
      · simp
      · split
        · simp
        · simpa using ih

theorem getStartFlow_ne_mg (doc : Doc) (p : Element) :
    getStartFlowOfProcess doc p ≠ .error .malformedGraph := by
  unfold getStartFlowOfProcess
  exact findStartFlow_ne_mg doc _

theorem addProcessNodeInfo_error {st : St} {e : Element} {er : Err} {st' : St}
    (h : addProcessNodeInfo st e = (.error er, st')) :
    er = .missingOperationBinding ∧ st' = st := by
  unfold addProcessNodeInfo getProcessNodeInfo at h
  cases hl : lookupAttr e "rpa:operation" with
  | none => rw [hl] at h; simp at h; exact ⟨h.1.symm, h.2.symm⟩
  | some op => rw [hl] at h; simp at h

theorem findStartFlow_absent (doc : Doc) :
    ∀ l : List Element,
      (∀ fl ∈ l, ∃ sid src, fl.sourceRef = some sid ∧ doc.find sid = some src ∧
        src.type ≠ "bpmn:StartEvent") →
      findStartFlow doc l = .ok none := by
  intro l
  induction l with
  | nil => intro _; rfl
  | cons fl rest ih =>
    intro h
    obtain ⟨sid, src, h1, h2, h3⟩ := h fl (List.mem_cons_self _ _)
    unfold findStartFlow
    simp only [h1, h2]
    have hbeq : (src.type == "bpmn:StartEvent") = false := beq_eq_false_iff_ne.mpr h3
    simp only [hbeq]
    simpa using ih (fun g hg => h g (List.mem_cons_of_mem _ hg))

/-- C5: the start-edge lookup returns "absent" — `ok none`, not an error —
whenever no sequence flow of the process originates from a start event
(first conjunct), and a `parseProcess` call fails with `MalformedGraph`
exactly when its own start lookup came back absent, or the found start flow
has no target, or the failure bubbled up from a nested walk (which,
recursively, is again a start-check failure of a sub-process); in the two
local cases the metadata table is left untouched (second conjunct). -/
theorem C5_malformed_graph :
    (∀ (doc : Doc) (p : Element),
       (∀ fl ∈ (p.flowElements.filterMap doc.find).filter
           (fun e => e.type == "bpmn:SequenceFlow"),
         ∃ sid src, fl.sourceRef = some sid ∧ doc.find sid = some src ∧
           src.type ≠ "bpmn:StartEvent") →
       getStartFlowOfProcess doc p = .ok none) ∧
    (∀ (doc : Doc) (f : Nat) (st : St) (p : Element) (st'' : St),
       parseProcess doc (f + 1) st p = (.error .malformedGraph, st'') ↔
         ((getStartFlowOfProcess doc p = .ok none ∧ st'' = st) ∨
          (∃ fl, getStartFlowOfProcess doc p = .ok (some fl) ∧
            fl.targetRef = none ∧ st'' = st) ∨
          (∃ fl tid tgt, getStartFlowOfProcess doc p = .ok (some fl) ∧
            fl.targetRef = some tid ∧ doc.find tid = some tgt ∧
            parseProcessFlowUntilElement doc (f + 1) st (some tgt) "bpmn:EndEvent" =
              (.error .malformedGraph, st'')))) := by
  constructor
  · intro doc p h
    unfold getStartFlowOfProcess
    exact findStartFlow_absent doc _ h
  · intro doc f st p st''
    constructor
    · intro h
      rw [parseProcess_succ] at h
      split at h
      · rename_i e hsf
        simp only [Prod.mk.injEq, Except.error.injEq] at h
        exact absurd (h.1 ▸ hsf) (getStartFlow_ne_mg doc p)
      · rename_i hsf
        simp only [Prod.mk.injEq] at h
        exact Or.inl ⟨hsf, h.2.symm⟩
      · rename_i fl hsf
        split at h
        · rename_i htr
          simp only [Prod.mk.injEq] at h
          exact Or.inr (Or.inl ⟨fl, hsf, htr, h.2.symm⟩)
        · rename_i tid htr
          split at h
          · simp at h
          · rename_i tgt htgt
            split at h
            · rename_i e st1 hw
              simp only [Prod.mk.injEq, Except.error.injEq] at h
              refine Or.inr (Or.inr ⟨fl, tid, tgt, hsf, htr, htgt, ?_⟩)
              rw [hw, h.1, h.2]
            · rename_i val st1 hw
              split at h
              · split at h
                · rename_i er st2 hadd
                  simp only [Prod.mk.injEq, Except.error.injEq] at h
                  exact absurd (h.1 ▸ (addProcessNodeInfo_error hadd).1) (by simp)
                · simp at h
              · simp at h
    · intro h
      rcases h with ⟨hsf, rfl⟩ | ⟨fl, hsf, htr, rfl⟩ | ⟨fl, tid, tgt, hsf, htr, htgt, hw⟩
      · rw [parseProcess_succ]
        simp only [hsf]
      · rw [parseProcess_succ]
        simp only [hsf, htr]
      · rw [parseProcess_succ]
        simp only [hsf, htr, htgt, hw]

/-- The one sequence flow of `noStartDoc`; its source is a Task. -/
def noStartFlowEl : Element :=
  { id := "f1", type := "bpmn:SequenceFlow", sourceRef := some "A",
    targetRef := some "B" }

/-- Process whose only flow leaves a Task, not a Start event. -/
def noStartDoc : Doc :=
  { rootElements := ["Process_1"],
    elements :=
      [ { id := "Process_1", type := "bpmn:Process", flowElements := ["f1"] },
        noStartFlowEl,
        mkTask "A" "a" "f1",
        mkTask "B" "b" "f1" ] }

/-- Witness for C5: with no flow leaving a start event the lookup reports
"absent" and `parseProcess` escalates to `MalformedGraph`, leaving the
table untouched. -/
theorem C5_malformed_graph_witness :
    getStartFlowOfProcess noStartDoc
        { id := "Process_1", type := "bpmn:Process", flowElements := ["f1"] } =
      .ok none ∧
    parseProcess noStartDoc 1 []
        { id := "Process_1", type := "bpmn:Process", flowElements := ["f1"] } =
      (.error .malformedGraph, []) := by
  have h1 : getStartFlowOfProcess noStartDoc
      { id := "Process_1", type := "bpmn:Process", flowElements := ["f1"] } =
      .ok none := by
    apply C5_malformed_graph.1
    intro fl hfl
    have hfl1 : fl ∈ [noStartFlowEl] := hfl
    have heq : fl = noStartFlowEl := by simpa using hfl1
    subst heq
    exact ⟨"A", mkTask "A" "a" "f1", rfl, rfl, by decide⟩
  exact ⟨h1, (C5_malformed_graph.2 noStartDoc 0 []
    { id := "Process_1", type := "bpmn:Process", flowElements := ["f1"] } []).mpr
    (Or.inl ⟨h1, rfl⟩)⟩

/-- Process with a sub-process followed by a further task:
`Start → SP_1(Start → T1 → End) → T2 → End`. -/
def subDoc : Doc :=
  { rootElements := ["Process_1"],
    elements :=
      [ { id := "Process_1", type := "bpmn:Process", flowElements := ["pf_1"] },
        { id := "Start_1", type := "bpmn:StartEvent", outgoing := some ["pf_1"] },
        mkFlow "pf_1" "Start_1" "SP_1",
        { id := "SP_1", type := "bpmn:SubProcess",
          attrs := [("rpa:operation", "subop")], outgoing := some ["pf_2"],
          flowElements := ["if_1"] },
        mkFlow "pf_2" "SP_1" "T2",
        mkTask "T2" "t2op" "pf_3",
        mkFlow "pf_3" "T2" "End_1",
        linEnd,
        { id := "SStart_1", type := "bpmn:StartEvent", outgoing := some ["if_1"] },
        mkFlow "if_1" "SStart_1" "T1",
        mkTask "T1" "t1op" "if_2",
        mkFlow "if_2" "T1" "SEnd_1",
        { id := "SEnd_1", type := "bpmn:EndEvent" } ] }

/-- C6: a successful `parseProcess` always returns the process's own node —
never the inner end event — as `lastVisitedNode`, and keys its tree by the
process's id when it carries an operation attribute and by the generic
`"Process"` key otherwise (first conjunct); concretely, on `subDoc` the
sub-process is keyed by its own id and the following task `T2` appears as
its next sibling inside the parent `Flow`, not as its child (second
conjunct). -/
theorem C6_subprocess_resume :
    (∀ (doc : Doc) (f : Nat) (st : St) (p : Element) (t : PTree)
       (l : Option Element) (st' : St),
       parseProcess doc (f + 1) st p = (.ok (t, l), st') →
       l = some p ∧
       ∃ tp, t = PTree.node
         (if (lookupAttr p "rpa:operation").isSome then p.id else "Process") tp) ∧
    parseBpmnModdle subDoc 10 [] =
      (.ok (.node "Process"
          [.node "Flow" [.node "SP_1" [.leaf "T1"], .leaf "T2"]],
        [("T1", ⟨"T1", "t1op"⟩), ("SP_1", ⟨"SP_1", "subop"⟩), ("T2", ⟨"T2", "t2op"⟩)]),
       [("T1", ⟨"T1", "t1op"⟩), ("SP_1", ⟨"SP_1", "subop"⟩), ("T2", ⟨"T2", "t2op"⟩)]) := by
  constructor
  · intro doc f st p t l st' h
    rw [parseProcess_succ] at h
    split at h
    · simp at h
    · simp at h
    · split at h
      · simp at h
      · split at h
        · simp at h
        · split at h
          · simp at h
          · split at h
            · rename_i hcond
              split at h
              · simp at h
              · simp only [Prod.mk.injEq, Except.ok.injEq] at h
                obtain ⟨⟨ht, hl⟩, -⟩ := h
                refine ⟨hl.symm, ?_⟩
                rw [← ht, if_pos (by simpa using hcond)]
                exact ⟨_, rfl⟩
            · rename_i hcond
              simp only [Prod.mk.injEq, Except.ok.injEq] at h
              obtain ⟨⟨ht, hl⟩, -⟩ := h
              refine ⟨hl.symm, ?_⟩
              rw [← ht, if_neg (by simpa using hcond)]
              exact ⟨_, rfl⟩
  · rfl

/-- Witness for C6 on the concrete `subDoc` run: the last visited node is
the process element itself and the tree is keyed by the generic key (the
top process has no operation attribute). -/
theorem C6_subprocess_resume_witness :
    (some { id := "Process_1", type := "bpmn:Process", flowElements := ["pf_1"] } :
        Option Element) =
      some { id := "Process_1", type := "bpmn:Process", flowElements := ["pf_1"] } ∧
    ∃ tp, PTree.node "Process"
        [.node "Flow" [.node "SP_1" [.leaf "T1"], .leaf "T2"]] =
      PTree.node
        (if (lookupAttr
            { id := "Process_1", type := "bpmn:Process", flowElements := ["pf_1"] }
            "rpa:operation").isSome
         then ({ id := "Process_1", type := "bpmn:Process",
                 flowElements := ["pf_1"] } : Element).id
         else "Process") tp :=
  C6_subprocess_resume.1 subDoc 9 []
    { id := "Process_1", type := "bpmn:Process", flowElements := ["pf_1"] }
    (PTree.node "Process" [.node "Flow" [.node "SP_1" [.leaf "T1"], .leaf "T2"]])
    (some { id := "Process_1", type := "bpmn:Process", flowElements := ["pf_1"] })
    [("T1", ⟨"T1", "t1op"⟩), ("SP_1", ⟨"SP_1", "subop"⟩), ("T2", ⟨"T2", "t2op"⟩)]
    rfl

mutual
/-- No `{"Flow": [...]}` record in the tree has exactly one child.  A
`node` keyed by the reserved word `"Flow"` is a sequential wrapper group;
the check is recursive through all children. -/
def noSingFlow : PTree → Bool
  | .leaf _ => true
  | .node k l => (k != "Flow" || l.length != 1) && noSingFlowList l
  | .arr l => noSingFlowList l

/-- `noSingFlow` for every member of a list. -/
def noSingFlowList : List PTree → Bool
  | [] => true
  | t :: ts => noSingFlow t && noSingFlowList ts
end

theorem noSingFlowList_append {l1 l2 : List PTree}
    (h1 : noSingFlowList l1 = true) (h2 : noSingFlowList l2 = true) :
    noSingFlowList (l1 ++ l2) = true := by
  induction l1 with
  | nil => simpa using h2
  | cons t ts ih =>
    rw [noSingFlowList] at h1
    simp only [Bool.and_eq_true] at h1
    simp only [List.cons_append, noSingFlowList, Bool.and_eq_true]
    exact ⟨h1.1, ih h1.2⟩

theorem noSingFlow_node_of_ne {k : String} {l : List PTree} (hk : k ≠ "Flow")
    (hl : noSingFlowList l = true) : noSingFlow (PTree.node k l) = true := by
  rw [noSingFlow]
  simp [hk, hl]

theorem noSingFlow_flow_of_len {l : List PTree} (hlen : (l.length == 1) = false)
    (hl : noSingFlowList l = true) : noSingFlow (PTree.node "Flow" l) = true := by
  rw [noSingFlow]
  simp only [Bool.and_eq_true, Bool.or_eq_true]
  refine ⟨Or.inr ?_, hl⟩
  simpa using hlen

theorem noSingFlowList_mem {l : List PTree} (h : noSingFlowList l = true)
    {t : PTree} (ht : t ∈ l) : noSingFlow t = true := by
  induction l with
  | nil => cases ht
  | cons x xs ih =>
    rw [noSingFlowList] at h
    simp only [Bool.and_eq_true] at h
    rcases List.mem_cons.mp ht with rfl | hxs
    · exact h.1
    · exact ih h.2 hxs

theorem noSingFlow_arr (l : List PTree) :
    noSingFlow (PTree.arr l) = noSingFlowList l := by rw [noSingFlow]

theorem noSingFlowList_singleton {t : PTree} (h : noSingFlow t = true) :
    noSingFlowList [t] = true := by
  rw [noSingFlowList, noSingFlowList]
  simp [h]

/-- Invariant: on a document none of whose elements is named `"Flow"`, every
tree fragment produced by any of the parsing functions contains no
single-child `Flow` wrapper. -/
theorem noSing_inv (n : Nat) : ∀ doc : Doc, (∀ e ∈ doc.elements, e.id ≠ "Flow") →
    (∀ (st : St) (p : Element) (t : PTree) (l : Option Element) (st' : St),
      p.id ≠ "Flow" → parseProcess doc n st p = (.ok (t, l), st') →
      noSingFlow t = true) ∧
    (∀ (st : St) (s : Option Element) (tt : String) (l : List PTree)
      (nx : Option Element) (st' : St),
      (∀ e, s = some e → e.id ≠ "Flow") →
      parseProcessFlowUntilElement doc n st s tt = (.ok (l, nx), st') →
      noSingFlowList l = true) ∧
    (∀ (st : St) (acc : List PTree) (s : Option Element) (tt : String)
      (l : List PTree) (nx : Option Element) (st' : St),
      noSingFlowList acc = true →
      (∀ e, s = some e → e.id ≠ "Flow") →
      flowLoop doc n st acc s tt = (.ok (l, nx), st') → noSingFlowList l = true) ∧
    (∀ (st : St) (cur : Element) (t : PTree) (l : Option Element) (st' : St),
      cur.id ≠ "Flow" → parseProcessSegment doc n st cur = (.ok (t, l), st') →
      noSingFlow t = true) ∧
    (∀ (st : St) (gw : Element) (t : PTree) (l : Option Element) (st' : St),
      gw.id ≠ "Flow" → parseSplittedControlflow doc n st gw = (.ok (t, l), st') →
      noSingFlow t = true) ∧
    (∀ (st : St) (edges : List String) (tt : String) (fr : List PTree)
      (ls : List Element) (st' : St),
      parseBranches doc n st edges tt = (.ok (fr, ls), st') →
      noSingFlowList fr = true) := by
  induction n with
  | zero =>
    intro doc hdoc
    refine ⟨fun st p t l st' hp h => ?_, fun st s tt l nx st' hs h => ?_,
      fun st acc s tt l nx st' ha hs h => ?_, fun st cur t l st' hc h => ?_,
      fun st gw t l st' hg h => ?_, fun st edges tt fr ls st' h => ?_⟩ <;>
      simp [parseProcess_zero, parseProcessFlowUntilElement_zero, flowLoop_zero,
        parseProcessSegment_zero, parseSplittedControlflow_zero,
        parseBranches_zero] at h
  | succ n ih =>
    intro doc hdoc
    obtain ⟨ihpp, ihpfu, ihfl, ihseg, ihsplit, ihbr⟩ := ih doc hdoc
    have hseg : ∀ (st : St) (cur : Element) (t : PTree) (l : Option Element)
        (st' : St), cur.id ≠ "Flow" →
        parseProcessSegment doc (n + 1) st cur = (.ok (t, l), st') →
        noSingFlow t = true := by
      intro st cur t l st' hc h
      rw [parseProcessSegment_succ] at h
      cases h1 : (cur.type == "bpmn:Task") with
      | true =>
        simp only [h1, if_true] at h
        rcases ha : addProcessNodeInfo st cur with ⟨r, st1⟩
        simp only [ha] at h
        cases r with
        | error e => simp at h
        | ok u =>
          simp only [Prod.mk.injEq, Except.ok.injEq] at h
          rw [← h.1.1]
          rw [noSingFlow]
      | false =>
        simp only [h1, Bool.false_eq_true, if_false] at h
        cases h2 : (cur.type == "bpmn:ParallelGateway" ||
            cur.type == "bpmn:ExclusiveGateway") with
        | true =>
          simp only [h2, if_true] at h
          exact ihsplit st cur t l st' hc h
        | false =>
          simp only [h2, Bool.false_eq_true, if_false] at h
          cases h3 : (cur.type == "bpmn:SubProcess") with
          | true =>
            simp only [h3, if_true] at h
            exact ihpp st cur t l st' hc h
          | false =>
            simp only [h3, Bool.false_eq_true, if_false] at h
            simp only [Prod.mk.injEq, Except.ok.injEq] at h
            rw [← h.1.1]
            rw [noSingFlow]
    have hfl : ∀ (st : St) (acc : List PTree) (s : Option Element) (tt : String)
        (l : List PTree) (nx : Option Element) (st' : St),
        noSingFlowList acc = true →
        (∀ e, s = some e → e.id ≠ "Flow") →
        flowLoop doc (n + 1) st acc s tt = (.ok (l, nx), st') →
        noSingFlowList l = true := by
      intro st acc s tt l nx st' hacc hs h
      rw [flowLoop_succ] at h
      cases s with
      | none =>
        simp only [Prod.mk.injEq, Except.ok.injEq] at h
        rw [← h.1.1]
        exact hacc
      | some cur =>
        have hcur := hs cur rfl
        cases ht : (cur.type == tt) with
        | true =>
          simp only [ht, if_true] at h
          simp only [Prod.mk.injEq, Except.ok.injEq] at h
          rw [← h.1.1]
          exact hacc
        | false =>
          simp only [ht, Bool.false_eq_true, if_false] at h
          rcases hsg : parseProcessSegment doc (n + 1) st cur with ⟨r1, st1⟩
          simp only [hsg] at h
          cases r1 with
          | error e => simp at h
          | ok v =>
            obtain ⟨tp, le⟩ := v
            have htp := hseg st cur tp le st1 hcur hsg
            have hacc' : noSingFlowList (acc ++ [tp]) = true :=
              noSingFlowList_append hacc (noSingFlowList_singleton htp)
            cases le with
            | none =>
              simp only [Prod.mk.injEq, Except.ok.injEq] at h
              rw [← h.1.1]
              exact hacc'
            | some leEl =>
              cases ho : leEl.outgoing with
              | none =>
                simp only [ho] at h
                simp only [Prod.mk.injEq, Except.ok.injEq] at h
                rw [← h.1.1]
                exact hacc'
              | some lst =>
                cases lst with
                | nil => simp only [ho] at h; simp at h
                | cons eid erest =>
                  simp only [ho] at h
                  rcases hfe : doc.find eid with _ | edge
                  · simp only [hfe] at h
                    simp at h
                  · simp only [hfe] at h
                    cases htr : edge.targetRef with
                    | none =>
                      simp only [htr] at h
                      simp only [Prod.mk.injEq, Except.ok.injEq] at h
                      rw [← h.1.1]
                      exact hacc'
                    | some tid =>
                      simp only [htr] at h
                      rcases hft : doc.find tid with _ | tgt
                      · simp only [hft] at h
                        simp at h
                      · simp only [hft] at h
                        refine ihfl st1 (acc ++ [tp]) (some tgt) tt l nx st'
                          hacc' ?_ h
                        intro e he
                        cases he
                        exact hdoc tgt (Doc.find_mem hft)
    have hpfu : ∀ (st : St) (s : Option Element) (tt : String) (l : List PTree)
        (nx : Option Element) (st' : St),
        (∀ e, s = some e → e.id ≠ "Flow") →
        parseProcessFlowUntilElement doc (n + 1) st s tt = (.ok (l, nx), st') →
        noSingFlowList l = true := by
      intro st s tt l nx st' hs h
      rw [parseProcessFlowUntilElement_succ] at h
      rcases hw : flowLoop doc (n + 1) st [] s tt with ⟨r1, st1⟩
      simp only [hw] at h
      cases r1 with
      | error e => simp at h
      | ok v =>
        obtain ⟨parsed, next⟩ := v
        have hp := hfl st [] s tt parsed next st1 (by rw [noSingFlowList]) hs hw
        cases hlen : (parsed.length == 1) with
        | true =>
          simp only [hlen, if_true] at h
          simp only [Prod.mk.injEq, Except.ok.injEq] at h
          rw [← h.1.1]
          exact hp
        | false =>
          simp only [hlen, Bool.false_eq_true, if_false] at h
          simp only [Prod.mk.injEq, Except.ok.injEq] at h
          rw [← h.1.1]
          exact noSingFlowList_singleton (noSingFlow_flow_of_len hlen hp)
    have hbr : ∀ (st : St) (edges : List String) (tt : String) (fr : List PTree)
        (ls : List Element) (st' : St),
        parseBranches doc (n + 1) st edges tt = (.ok (fr, ls), st') →
        noSingFlowList fr = true := by
      intro st edges tt fr ls st' h
      cases edges with
      | nil =>
        rw [parseBranches_succ_nil] at h
        simp only [Prod.mk.injEq, Except.ok.injEq] at h
        rw [← h.1.1]
        rw [noSingFlowList]
      | cons e rest =>
        rw [parseBranches_succ_cons] at h
        have hcont : ∀ s : Option Element, (∀ e, s = some e → e.id ≠ "Flow") →
            (match parseProcessFlowUntilElement doc (n + 1) st s tt with
              | (.error e, st') =>
                ((.error e : Except Err (List PTree × List Element)), st')
              | (.ok (parsedFlowBranch, lastElement), st') =>
                match parseBranches doc n st' rest tt with
                | (.error e, st'') => (.error e, st'')
                | (.ok (fr, ls), st'') =>
                  (.ok ((match parsedFlowBranch with | [x] => x | l => .arr l) :: fr,
                        (match lastElement with | some le => [le] | none => []) ++ ls),
                   st'')) = (.ok (fr, ls), st') → noSingFlowList fr = true := by
          intro s hs h
          rcases hpw : parseProcessFlowUntilElement doc (n + 1) st s tt with ⟨r1, st1⟩
          simp only [hpw] at h
          cases r1 with
          | error e1 => simp at h
          | ok v =>
            obtain ⟨parsed, lastEl⟩ := v
            have hp := hpfu st s tt parsed lastEl st1 hs hpw
            rcases hrec : parseBranches doc n st1 rest tt with ⟨r2, st2⟩
            simp only [hrec] at h
            cases r2 with
            | error e2 => simp at h
            | ok v2 =>
              obtain ⟨fr2, ls2⟩ := v2
              have hf2 := ihbr st1 rest tt fr2 ls2 st2 hrec
              simp only [Prod.mk.injEq, Except.ok.injEq] at h
              rw [← h.1.1, noSingFlowList]
              simp only [Bool.and_eq_true]
              refine ⟨?_, hf2⟩
              rcases parsed with _ | ⟨x, _ | ⟨y, zs⟩⟩
              · exact (show noSingFlow (PTree.arr []) = true by
                  rw [noSingFlow_arr]; exact hp)
              · exact noSingFlowList_mem hp (List.mem_singleton_self x)
              · exact (show noSingFlow (PTree.arr (x :: y :: zs)) = true by
                  rw [noSingFlow_arr]; exact hp)
        rcases hfe : doc.find e with _ | branch
        · simp only [hfe] at h
          simp at h
        · simp only [hfe] at h
          rcases htr : branch.targetRef with _ | tid
          · simp only [htr] at h
            exact hcont none (fun e he => by cases he) h
          · simp only [htr] at h
            rcases hft : doc.find tid with _ | tgt
            · simp only [hft] at h
              simp at h
            · simp only [hft] at h
              refine hcont (some tgt) ?_ h
              intro e he
              cases he
              exact hdoc tgt (Doc.find_mem hft)
    have hsplit : ∀ (st : St) (gw : Element) (t : PTree) (l : Option Element)
        (st' : St), gw.id ≠ "Flow" →
        parseSplittedControlflow doc (n + 1) st gw = (.ok (t, l), st') →
        noSingFlow t = true := by
      intro st gw t l st' hg h
      rw [parseSplittedControlflow_succ] at h
      rcases ho : gw.outgoing with _ | edges
      · simp only [ho] at h
        simp at h
      · simp only [ho] at h
        rcases hb : parseBranches doc (n + 1) st edges gw.type with ⟨r1, st1⟩
        simp only [hb] at h
        cases r1 with
        | error e1 => simp at h
        | ok v =>
          obtain ⟨frags, lasts⟩ := v
          have hfr := hbr st edges gw.type frags lasts st1 hb
          cases hsame : allSameFirstId lasts with
          | true =>
            simp only [hsame, if_true] at h
            rcases ha : addProcessNodeInfo st1 gw with ⟨r2, st2⟩
            simp only [ha] at h
            cases r2 with
            | error e2 => simp at h
            | ok u =>
              simp only [Prod.mk.injEq, Except.ok.injEq] at h
              rw [← h.1.1]
              exact noSingFlow_node_of_ne hg hfr
          | false =>
            simp only [hsame, Bool.false_eq_true, if_false] at h
            simp at h
    have hpp : ∀ (st : St) (p : Element) (t : PTree) (l : Option Element)
        (st' : St), p.id ≠ "Flow" →
        parseProcess doc (n + 1) st p = (.ok (t, l), st') →
        noSingFlow t = true := by
      intro st p t l st' hp h
      rw [parseProcess_succ] at h
      rcases hsf : getStartFlowOfProcess doc p with e | o
      · simp only [hsf] at h
        simp at h
      · simp only [hsf] at h
        cases o with
        | none => simp at h
        | some fl =>
          rcases htr : fl.targetRef with _ | tid
          · simp only [htr] at h
            simp at h
          · simp only [htr] at h
            rcases hft : doc.find tid with _ | tgt
            · simp only [hft] at h
              simp at h
            · simp only [hft] at h
              rcases hw : parseProcessFlowUntilElement doc (n + 1) st (some tgt)
                "bpmn:EndEvent" with ⟨r1, st1⟩
              simp only [hw] at h
              cases r1 with
              | error e1 => simp at h
              | ok v =>
                obtain ⟨treePart, last⟩ := v
                have htp : noSingFlowList treePart = true := by
                  refine hpfu st (some tgt) "bpmn:EndEvent" treePart last st1 ?_ hw
                  intro e he
                  cases he
                  exact hdoc tgt (Doc.find_mem hft)
                cases hop : (lookupAttr p "rpa:operation").isSome with
                | true =>
                  simp only [hop, if_true] at h
                  rcases ha : addProcessNodeInfo st1 p with ⟨r2, st2⟩
                  simp only [ha] at h
                  cases r2 with
                  | error e2 => simp at h
                  | ok u =>
                    simp only [Prod.mk.injEq, Except.ok.injEq] at h
                    rw [← h.1.1]
                    exact noSingFlow_node_of_ne hp htp
                | false =>
                  simp only [hop, Bool.false_eq_true, if_false] at h
                  simp only [Prod.mk.injEq, Except.ok.injEq] at h
                  rw [← h.1.1]
                  exact noSingFlow_node_of_ne (by simp) htp
    exact ⟨hpp, hpfu, hfl, hseg, hsplit, hbr⟩

/-- C7: the collapsing rule — a walked segment whose ordered list has
exactly one element is returned as is (the single element, not wrapped in
any group), any other length is wrapped in a `Flow` group preserving order
(first conjunct); consequently, on any document that does not itself use
the reserved id `"Flow"`, no single-child `Flow` wrapper ever appears
anywhere in the output tree (second conjunct). -/
theorem C7_collapse_rule :
    (∀ (doc : Doc) (f : Nat) (st : St) (s : Option Element) (tt : String)
       (l : List PTree) (next : Option Element) (st' : St),
       flowLoop doc (f + 1) st [] s tt = (.ok (l, next), st') →
       parseProcessFlowUntilElement doc (f + 1) st s tt =
         (if l.length == 1 then ((.ok (l, next) : Except Err (List PTree × Option Element)), st')
          else (.ok ([PTree.node "Flow" l], next), st'))) ∧
    (∀ doc : Doc, (∀ e ∈ doc.elements, e.id ≠ "Flow") →
       ∀ (f : Nat) (st : St) (tree : PTree) (meta st' : St),
       parseBpmnModdle doc f st = (.ok (tree, meta), st') →
       noSingFlow tree = true) := by
  constructor
  · intro doc f st s tt l next st' h
    rw [parseProcessFlowUntilElement_succ]
    simp only [h]
  · intro doc hdoc f st tree meta st' h
    unfold parseBpmnModdle at h
    rcases hh : doc.rootElements.head? with _ | rid
    · simp only [hh] at h
      simp at h
    · simp only [hh] at h
      rcases hf : doc.find rid with _ | proc
      · simp only [hf] at h
        simp at h
      · simp only [hf] at h
        rcases hp : parseProcess doc f st proc with ⟨r, st1⟩
        simp only [hp] at h
        cases r with
        | error e => simp at h
        | ok v =>
          obtain ⟨t, last⟩ := v
          simp only [Prod.mk.injEq, Except.ok.injEq] at h
          rw [← h.1.1]
          exact (noSing_inv f doc hdoc).1 st proc t last st1
            (hdoc proc (Doc.find_mem hf)) hp

/-- Witness for C7 on the sub-process document: no element of `subDoc` is
named `Flow`, and the produced tree — whose only `Flow` group has two
children — satisfies the invariant. -/
theorem C7_collapse_rule_witness :
    noSingFlow (PTree.node "Process"
      [.node "Flow" [.node "SP_1" [.leaf "T1"], .leaf "T2"]]) = true :=
  C7_collapse_rule.2 subDoc (by decide) 10 []
    (PTree.node "Process" [.node "Flow" [.node "SP_1" [.leaf "T1"], .leaf "T2"]])
    [("T1", ⟨"T1", "t1op"⟩), ("SP_1", ⟨"SP_1", "subop"⟩), ("T2", ⟨"T2", "t2op"⟩)]
    [("T1", ⟨"T1", "t1op"⟩), ("SP_1", ⟨"SP_1", "subop"⟩), ("T2", ⟨"T2", "t2op"⟩)]
    rfl

/-- A lone task whose `outgoing` property is the *empty array* (not
`undefined`). -/
def emptyOutTask : Element :=
  { id := "A", type := "bpmn:Task", attrs := [("rpa:operation", "a")],
    outgoing := some [] }

/-- Document containing only `emptyOutTask`. -/
def emptyOutDoc : Doc := { rootElements := [], elements := [emptyOutTask] }

/-- C8 counterexample: on a node whose outgoing-edge list is *empty* the
walk does not halt cleanly — `lastElement.outgoing` is a truthy empty
array, so the source evaluates `outgoing[0].targetRef` on `undefined` and
crashes with a TypeError (after having recorded the task's metadata). -/
theorem C8_counterexample :
    flowLoop emptyOutDoc 5 [] [] (some emptyOutTask) "bpmn:EndEvent" =
      (.error .typeError, [("A", ⟨"A", "a"⟩)]) := rfl

/-- C8 (amended): the flow walk halts cleanly — returning the segment built
so far and the node where it stopped — when the current node's kind equals
the termination kind (conjunct 1), when the segment yields no next node
(conjunct 2), or when the last element's `outgoing` property is missing
(`undefined`; conjunct 3); but when `outgoing` is present as an *empty
list* the advance dereferences an undefined first edge and the walk aborts
with a TypeError instead of halting cleanly (conjunct 4). -/
theorem C8_flow_walk_halts :
    (∀ (doc : Doc) (f : Nat) (st : St) (acc : List PTree) (tt : String)
       (cur : Element), (cur.type == tt) = true →
       flowLoop doc (f + 1) st acc (some cur) tt = (.ok (acc, some cur), st)) ∧
    (∀ (doc : Doc) (f : Nat) (st : St) (acc : List PTree) (tt : String)
       (cur : Element) (tp : PTree) (st' : St),
       (cur.type == tt) = false →
       parseProcessSegment doc (f + 1) st cur = (.ok (tp, none), st') →
       flowLoop doc (f + 1) st acc (some cur) tt = (.ok (acc ++ [tp], none), st')) ∧
    (∀ (doc : Doc) (f : Nat) (st : St) (acc : List PTree) (tt : String)
       (cur : Element) (tp : PTree) (le : Element) (st' : St),
       (cur.type == tt) = false →
       parseProcessSegment doc (f + 1) st cur = (.ok (tp, some le), st') →
       le.outgoing = none →
       flowLoop doc (f + 1) st acc (some cur) tt = (.ok (acc ++ [tp], none), st')) ∧
    (∀ (doc : Doc) (f : Nat) (st : St) (acc : List PTree) (tt : String)
       (cur : Element) (tp : PTree) (le : Element) (st' : St),
       (cur.type == tt) = false →
       parseProcessSegment doc (f + 1) st cur = (.ok (tp, some le), st') →
       le.outgoing = some [] →
       flowLoop doc (f + 1) st acc (some cur) tt = (.error .typeError, st')) := by
  refine ⟨?_, ?_, ?_, ?_⟩
  · intro doc f st acc tt cur h
    rw [flowLoop_succ]
    simp only [h]
    simp
  · intro doc f st acc tt cur tp st' h hseg
    rw [flowLoop_succ]
    simp only [h, hseg]
    simp
  · intro doc f st acc tt cur tp le st' h hseg hout
    rw [flowLoop_succ]
    simp only [h, hseg, hout]
    simp
  · intro doc f st acc tt cur tp le st' h hseg hout
    rw [flowLoop_succ]
    simp only [h, hseg, hout]
    simp

/-- Witness for C8: the walk halts cleanly on the end event, and the
empty-outgoing task aborts with a TypeError. -/
theorem C8_flow_walk_halts_witness :
    flowLoop emptyOutDoc 3 [] [] (some linEnd) "bpmn:EndEvent" =
      (.ok ([], some linEnd), []) ∧
    flowLoop emptyOutDoc 5 [] [] (some emptyOutTask) "bpmn:Task2" =
      (.error .typeError, [("A", ⟨"A", "a"⟩)]) :=
  ⟨C8_flow_walk_halts.1 emptyOutDoc 2 [] [] "bpmn:EndEvent" linEnd rfl,
   C8_flow_walk_halts.2.2.2 emptyOutDoc 4 [] [] "bpmn:Task2" emptyOutTask
     (.leaf "A") emptyOutTask [("A", ⟨"A", "a"⟩)] rfl rfl rfl⟩

/-- Linear process whose single task's outgoing flow loops back to itself:
`Start → A → A → A → ...`. -/
def cycDoc : Doc :=
  { rootElements := ["Process_1"],
    elements :=
      [ { id := "Process_1", type := "bpmn:Process", flowElements := ["sf_A"] },
        { id := "Start_1", type := "bpmn:StartEvent", outgoing := some ["sf_A"] },
        mkFlow "sf_A" "Start_1" "A",
        mkTask "A" "a" "f_AA",
        mkFlow "f_AA" "A" "A" ] }

/-- On the cyclic document the walk advances forever: whatever the fuel,
the loop reports fuel exhaustion. -/
theorem cyc_floop (f : Nat) : ∀ (st : St) (acc : List PTree), ∃ st',
    flowLoop cycDoc f st acc (some (mkTask "A" "a" "f_AA")) "bpmn:EndEvent" =
      (.error .fuelOut, st') := by
  induction f with
  | zero => intro st acc; exact ⟨st, rfl⟩
  | succ f ih =>
    intro st acc
    rw [flowLoop_mkTask_step cycDoc f st acc "bpmn:EndEvent" "A" "a" "f_AA" "A"
      (mkFlow "f_AA" "A" "A") (mkTask "A" "a" "f_AA") rfl rfl rfl rfl]
    exact ih _ _

theorem cyc_parse (f : Nat) (st : St) :
    (parseBpmnModdle cycDoc f st).1 = .error .fuelOut := by
  cases f with
  | zero => rfl
  | succ f =>
    obtain ⟨st', hw⟩ := cyc_floop (f + 1) st []
    unfold parseBpmnModdle
    simp only [show cycDoc.rootElements.head? = some "Process_1" from rfl,
      show cycDoc.find "Process_1" =
        some { id := "Process_1", type := "bpmn:Process",
               flowElements := ["sf_A"] } from rfl]
    rw [parseProcess_succ]
    simp only [show getStartFlowOfProcess cycDoc
        { id := "Process_1", type := "bpmn:Process", flowElements := ["sf_A"] } =
      .ok (some (mkFlow "sf_A" "Start_1" "A")) from rfl, mkFlow,
      show cycDoc.find "A" = some (mkTask "A" "a" "f_AA") from rfl]
    rw [parseProcessFlowUntilElement_succ]
    simp only [hw]

/-! ## Termination on rank-decreasing documents

The walk of the parser moves between elements in three ways: along the
first outgoing flow of the last visited element, into the targets of a
gateway's outgoing flows, and into the target of a (sub-)process's start
flow.  `stepToB` is the union of these moves.  When a document admits a
ranking of its element ids that strictly decreases along every such move —
equivalently, when the walk structure is acyclic — conversion terminates:
a fuel bound computed from the rank of the root suffices and the result is
never `fuelOut`. -/

/-- One walk move from `b` to `a`: via some outgoing flow of `b`, or via
the start flow of `b` when `b` is a process or sub-process. -/
def stepToB (doc : Doc) (b a : Element) : Bool :=
  ((b.outgoing.getD []).any (fun eid =>
    match doc.find eid with
    | none => false
    | some edge =>
      match edge.targetRef with
      | none => false
      | some tid =>
        match doc.find tid with
        | none => false
        | some t => t == a)) ||
  (match getStartFlowOfProcess doc b with
   | .ok (some fl) =>
     (match fl.targetRef with
     | none => false
     | some tid =>
       match doc.find tid with
       | none => false
       | some t => t == a)
   | _ => false)

/-- Largest number of outgoing flows of any element of the document. -/
def maxOut (doc : Doc) : Nat :=
  doc.elements.foldr (fun e m => max (e.outgoing.getD []).length m) 0

theorem le_foldr_max {e : Element} :
    ∀ l : List Element, e ∈ l →
      (e.outgoing.getD []).length ≤
        l.foldr (fun x m => max (x.outgoing.getD []).length m) 0 := by
  intro l
  induction l with
  | nil => intro h; cases h
  | cons x xs ih =>
    intro h
    rcases List.mem_cons.mp h with rfl | hx
    · exact le_max_left _ _
    · exact le_trans (ih hx) (le_max_right _ _)

theorem le_maxOut {doc : Doc} {e : Element} (he : e ∈ doc.elements) :
    (e.outgoing.getD []).length ≤ maxOut doc :=
  le_foldr_max doc.elements he

theorem stepToB_of_edge {doc : Doc} {b : Element} {eid : String}
    {edge : Element} {tid : String} {t : Element}
    (h1 : eid ∈ b.outgoing.getD []) (h2 : doc.find eid = some edge)
    (h3 : edge.targetRef = some tid) (h4 : doc.find tid = some t) :
    stepToB doc b t = true := by
  unfold stepToB
  refine Bool.or_eq_true_iff.mpr (Or.inl ?_)
  refine List.any_eq_true.mpr ⟨eid, h1, ?_⟩
  simp only [h2, h3, h4]
  simp

theorem stepToB_of_start {doc : Doc} {b : Element} {fl : Element}
    {tid : String} {t : Element}
    (h1 : getStartFlowOfProcess doc b = .ok (some fl))
    (h2 : fl.targetRef = some tid) (h3 : doc.find tid = some t) :
    stepToB doc b t = true := by
  unfold stepToB
  refine Bool.or_eq_true_iff.mpr (Or.inr ?_)
  simp only [h1, h2, h3]
  simp

/-- `parseProcess` always reports the process itself as the last visited
node when it succeeds. -/
theorem parseProcess_ok_last {doc : Doc} {f : Nat} {st : St} {p : Element}
    {t : PTree} {l : Option Element} {st' : St}
    (h : parseProcess doc f st p = (.ok (t, l), st')) : l = some p := by
  cases f with
  | zero => rw [parseProcess_zero] at h; simp at h
  | succ f =>
    rw [parseProcess_succ] at h
    rcases hsf : getStartFlowOfProcess doc p with e | o
    · simp only [hsf] at h; simp at h
    · simp only [hsf] at h
      cases o with
      | none => simp at h
      | some fl =>
        rcases htr : fl.targetRef with _ | tid
        · simp only [htr] at h; simp at h
        · simp only [htr] at h
          rcases hft : doc.find tid with _ | tgt
          · simp only [hft] at h; simp at h
          · simp only [hft] at h
            rcases hw : parseProcessFlowUntilElement doc (f + 1) st (some tgt)
              "bpmn:EndEvent" with ⟨r1, st1⟩
            simp only [hw] at h
            cases r1 with
            | error e1 => simp at h
            | ok v =>
              obtain ⟨tp, last⟩ := v
              cases hop : (lookupAttr p "rpa:operation").isSome with
              | true =>
                simp only [hop, if_true] at h
                rcases ha : addProcessNodeInfo st1 p with ⟨r2, st2⟩
                simp only [ha] at h
                cases r2 with
                | error e2 => simp at h
                | ok u =>
                  simp only [Prod.mk.injEq, Except.ok.injEq] at h
                  exact h.1.2.symm
              | false =>
                simp only [hop, Bool.false_eq_true, if_false] at h
                simp only [Prod.mk.injEq, Except.ok.injEq] at h
                exact h.1.2.symm

/-- The walk started on an absent element stops at once. -/
theorem flowLoop_none (doc : Doc) (f : Nat) (st : St) (acc : List PTree)
    (tt : String) :
    flowLoop doc (f + 1) st acc none tt = (.ok (acc, none), st) := by
  rw [flowLoop_succ]

/-- A walk started on an absent element yields an empty `Flow` group. -/
theorem pfu_none (doc : Doc) (f : Nat) (st : St) (tt : String) :
    parseProcessFlowUntilElement doc (f + 1) st none tt =
      (.ok ([.node "Flow" []], none), st) := by
  rw [parseProcessFlowUntilElement_succ, flowLoop_none]
  simp

theorem findStartFlow_ne_fuelOut (doc : Doc) :
    ∀ l : List Element, findStartFlow doc l ≠ .error .fuelOut := by
  intro l
  induction l with
  | nil => simp [findStartFlow]
  | cons fl rest ih =>
    unfold findStartFlow
    split
    · simp
    · split
      · simp
      · split
        · simp
        · simpa using ih

theorem getStartFlow_ne_fuelOut (doc : Doc) (p : Element) :
    getStartFlowOfProcess doc p ≠ .error .fuelOut :=
  findStartFlow_ne_fuelOut doc _

theorem req_mono {j k m f c : Nat} (hjk : j < k) (hf : k * m + c ≤ f) :
    j * m + m ≤ f := by
  have h1 : (j + 1) * m ≤ k * m := Nat.mul_le_mul_right m hjk
  have h2 : (j + 1) * m = j * m + m := by ring
  have h3 : k * m ≤ f := le_trans (Nat.le_add_right _ _) hf
  rw [← h2]
  exact le_trans h1 h3

theorem fuel_succ {P c f : Nat} (h : P + c ≤ f) (hc : 1 ≤ c) : ∃ g, f = g + 1 := by
  cases f with
  | zero => exact absurd h (by omega)
  | succ g => exact ⟨g, rfl⟩

theorem ne_fuelOut_transfer {γ δ : Type} {e : Err}
    (h : (Except.error e : Except Err γ) ≠ .error .fuelOut) :
    (Except.error e : Except Err δ) ≠ .error .fuelOut := by
  intro hcon
  injection hcon with he
  subst he
  exact h rfl

/-- Rank-indexed termination bundle: on a document whose walk moves always
strictly decrease a rank, every parsing function returns a real result (never
`fuelOut`) once the fuel exceeds a bound linear in the rank of its element,
and the last element it reports ranks no higher than the element it
started from. -/
theorem term_bundle (doc : Doc) (rank : String → Nat)
    (hrank : ∀ b ∈ doc.elements, ∀ a ∈ doc.elements,
      stepToB doc b a = true → rank a.id < rank b.id) :
    ∀ k : Nat,
    (∀ gw ∈ doc.elements, rank gw.id ≤ k →
      ∀ edges : List String, (∀ eid ∈ edges, eid ∈ gw.outgoing.getD []) →
      ∀ (f : Nat) (st : St) (tt : String),
        k * (maxOut doc + 2) + (edges.length + 1) ≤ f →
        (parseBranches doc f st edges tt).1 ≠ .error .fuelOut ∧
        (∀ fr ls st', parseBranches doc f st edges tt = (.ok (fr, ls), st') →
          ∀ le ∈ ls, le ∈ doc.elements ∧ rank le.id < rank gw.id)) ∧
    (∀ p ∈ doc.elements, rank p.id ≤ k →
      ∀ (f : Nat) (st : St), k * (maxOut doc + 2) + 1 ≤ f →
        (parseProcess doc f st p).1 ≠ .error .fuelOut) ∧
    (∀ gw ∈ doc.elements, rank gw.id ≤ k →
      ∀ (f : Nat) (st : St),
        k * (maxOut doc + 2) + (maxOut doc + 1) ≤ f →
        (parseSplittedControlflow doc f st gw).1 ≠ .error .fuelOut ∧
        (∀ t l st', parseSplittedControlflow doc f st gw = (.ok (t, l), st') →
          ∀ le, l = some le → le ∈ doc.elements ∧ rank le.id < rank gw.id)) ∧
    (∀ cur ∈ doc.elements, rank cur.id ≤ k →
      ∀ (f : Nat) (st : St),
        k * (maxOut doc + 2) + (maxOut doc + 2) ≤ f →
        (parseProcessSegment doc f st cur).1 ≠ .error .fuelOut ∧
        (∀ t l st', parseProcessSegment doc f st cur = (.ok (t, l), st') →
          ∀ le, l = some le → le ∈ doc.elements ∧ rank le.id ≤ rank cur.id)) ∧
    (∀ cur ∈ doc.elements, rank cur.id ≤ k →
      ∀ (f : Nat) (st : St) (acc : List PTree) (tt : String),
        k * (maxOut doc + 2) + (maxOut doc + 2) ≤ f →
        (flowLoop doc f st acc (some cur) tt).1 ≠ .error .fuelOut ∧
        (∀ l nx st', flowLoop doc f st acc (some cur) tt = (.ok (l, nx), st') →
          ∀ stop, nx = some stop → stop ∈ doc.elements ∧ rank stop.id ≤ rank cur.id)) ∧
    (∀ cur ∈ doc.elements, rank cur.id ≤ k →
      ∀ (f : Nat) (st : St) (tt : String),
        k * (maxOut doc + 2) + (maxOut doc + 2) ≤ f →
        (parseProcessFlowUntilElement doc f st (some cur) tt).1 ≠ .error .fuelOut ∧
        (∀ l nx st', parseProcessFlowUntilElement doc f st (some cur) tt =
            (.ok (l, nx), st') →
          ∀ stop, nx = some stop → stop ∈ doc.elements ∧ rank stop.id ≤ rank cur.id)) := by
  intro k
  induction k using Nat.strong_induction_on with
  | _ k IH =>
  have hbr : ∀ gw ∈ doc.elements, rank gw.id ≤ k →
      ∀ edges : List String, (∀ eid ∈ edges, eid ∈ gw.outgoing.getD []) →
      ∀ (f : Nat) (st : St) (tt : String),
        k * (maxOut doc + 2) + (edges.length + 1) ≤ f →
        (parseBranches doc f st edges tt).1 ≠ .error .fuelOut ∧
        (∀ fr ls st', parseBranches doc f st edges tt = (.ok (fr, ls), st') →
          ∀ le ∈ ls, le ∈ doc.elements ∧ rank le.id < rank gw.id) := by
    intro gw hgw hrk edges
    induction edges with
    | nil =>
      intro hmem f st tt hf
      obtain ⟨g, rfl⟩ := fuel_succ hf (by omega)
      rw [parseBranches_succ_nil]
      refine ⟨by simp, ?_⟩
      intro fr ls st' h
      simp only [Prod.mk.injEq, Except.ok.injEq] at h
      intro le hle
      rw [← h.1.2] at hle
      simp at hle
    | cons eid rest ihe =>
      intro hmem f st tt hf
      simp only [List.length_cons] at hf
      obtain ⟨g, rfl⟩ := fuel_succ hf (by omega)
      have hmem' : ∀ e' ∈ rest, e' ∈ gw.outgoing.getD [] :=
        fun e' he' => hmem e' (List.mem_cons_of_mem _ he')
      rcases hres : parseBranches doc (g + 1) st (eid :: rest) tt with ⟨r, st1⟩
      suffices hsuf : r ≠ .error .fuelOut ∧
          (∀ fr ls, r = .ok (fr, ls) →
            ∀ le ∈ ls, le ∈ doc.elements ∧ rank le.id < rank gw.id) by
        constructor
        · exact hsuf.1
        · intro fr ls st' h
          simp only [Prod.mk.injEq] at h
          exact hsuf.2 fr ls h.1
      rw [parseBranches_succ_cons] at hres
      rcases hfind : doc.find eid with _ | branch
      · simp only [hfind] at hres
        injection hres with h1 h2
        subst h1
        exact ⟨by simp, by intro fr ls h; simp at h⟩
      · simp only [hfind] at hres
        rcases htr : branch.targetRef with _ | tid
        · -- branch flow has no target: the branch walk starts on `none`
          simp only [htr, pfu_none] at hres
          have hrest := ihe hmem' g st tt (by omega)
          rcases hr : parseBranches doc g st rest tt with ⟨rr, st2⟩
          simp only [hr] at hres
          cases rr with
          | error e =>
            injection hres with h1 h2
            subst h1
            have h1 := hrest.1
            rw [hr] at h1
            exact ⟨ne_fuelOut_transfer h1, by intro fr ls h; simp at h⟩
          | ok w =>
            obtain ⟨fr0, ls0⟩ := w
            injection hres with h1 h2
            subst h1
            refine ⟨by simp, ?_⟩
            intro fr ls h
            simp only [Except.ok.injEq, Prod.mk.injEq] at h
            intro le hle
            rw [← h.2] at hle
            simp only [List.nil_append] at hle
            exact hrest.2 fr0 ls0 st2 hr le hle
        · simp only [htr] at hres
          rcases hft : doc.find tid with _ | t
          · simp only [hft] at hres
            injection hres with h1 h2
            subst h1
            exact ⟨by simp, by intro fr ls h; simp at h⟩
          · simp only [hft] at hres
            have ht_mem : t ∈ doc.elements := Doc.find_mem hft
            have hstep : stepToB doc gw t = true :=
              stepToB_of_edge (hmem eid (List.mem_cons_self _ _)) hfind htr hft
            have hlt : rank t.id < rank gw.id := hrank gw hgw t ht_mem hstep
            have hjk : rank t.id < k := lt_of_lt_of_le hlt hrk
            have hpfuIH := (IH (rank t.id) hjk).2.2.2.2.2 t ht_mem (le_refl _)
              (g + 1) st tt (req_mono hjk hf)
            rcases hw : parseProcessFlowUntilElement doc (g + 1) st (some t) tt
              with ⟨r1, st1⟩
            simp only [hw] at hres
            cases r1 with
            | error e =>
              injection hres with h1 h2
              subst h1
              have h1 := hpfuIH.1
              rw [hw] at h1
              exact ⟨ne_fuelOut_transfer h1, by intro fr ls h; simp at h⟩
            | ok v =>
              obtain ⟨pfb, lastEl⟩ := v
              have hrest := ihe hmem' g st1 tt (by omega)
              rcases hr : parseBranches doc g st1 rest tt with ⟨rr, st2⟩
              simp only [hr] at hres
              cases rr with
              | error e =>
                injection hres with h1 h2
                subst h1
                have h1 := hrest.1
                rw [hr] at h1
                exact ⟨ne_fuelOut_transfer h1, by intro fr ls h; simp at h⟩
              | ok w =>
                obtain ⟨fr0, ls0⟩ := w
                injection hres with h1 h2
                subst h1
                refine ⟨by simp, ?_⟩
                intro fr ls h
                simp only [Except.ok.injEq, Prod.mk.injEq] at h
                intro le hle
                rw [← h.2] at hle
                rcases List.mem_append.mp hle with hl1 | hl2
                · cases lastEl with
                  | none => simp at hl1
                  | some le0 =>
                    simp only [List.mem_singleton] at hl1
                    subst hl1
                    have hinv := hpfuIH.2 pfb (some le) st1 (by rw [hw]) le rfl
                    exact ⟨hinv.1, lt_of_le_of_lt hinv.2 hlt⟩
                · exact hrest.2 fr0 ls0 st2 hr le hl2
  have hpp : ∀ p ∈ doc.elements, rank p.id ≤ k →
      ∀ (f : Nat) (st : St), k * (maxOut doc + 2) + 1 ≤ f →
        (parseProcess doc f st p).1 ≠ .error .fuelOut := by
    intro p hp hrk f st hf
    obtain ⟨g, rfl⟩ := fuel_succ hf (by omega)
    rcases hres : parseProcess doc (g + 1) st p with ⟨r, st1⟩
    suffices hsuf : r ≠ .error .fuelOut by exact hsuf
    rw [parseProcess_succ] at hres
    rcases hsf : getStartFlowOfProcess doc p with e | o
    · simp only [hsf] at hres
      injection hres with h1 h2
      subst h1
      intro hcon
      injection hcon with he
      subst he
      exact getStartFlow_ne_fuelOut doc p hsf
    · simp only [hsf] at hres
      cases o with
      | none => injection hres with h1 h2; subst h1; simp
      | some startFlow =>
        rcases htr : startFlow.targetRef with _ | tid
        · simp only [htr] at hres; injection hres with h1 h2; subst h1; simp
        · simp only [htr] at hres
          rcases hft : doc.find tid with _ | tgt
          · simp only [hft] at hres; injection hres with h1 h2; subst h1; simp
          · simp only [hft] at hres
            have htgt_mem := Doc.find_mem hft
            have hstep := stepToB_of_start hsf htr hft
            have hlt := hrank p hp tgt htgt_mem hstep
            have hjk : rank tgt.id < k := lt_of_lt_of_le hlt hrk
            have hpfuIH := (IH _ hjk).2.2.2.2.2 tgt htgt_mem (le_refl _)
              (g + 1) st "bpmn:EndEvent" (req_mono hjk hf)
            rcases hw : parseProcessFlowUntilElement doc (g + 1) st (some tgt)
              "bpmn:EndEvent" with ⟨r1, st2⟩
            simp only [hw] at hres
            cases r1 with
            | error e =>
              injection hres with h1 h2
              subst h1
              have h1 := hpfuIH.1
              rw [hw] at h1
              exact ne_fuelOut_transfer h1
            | ok v =>
              obtain ⟨tp, last⟩ := v
              cases hop : (lookupAttr p "rpa:operation").isSome with
              | true =>
                simp only [hop, if_true] at hres
                rcases ha : addProcessNodeInfo st2 p with ⟨r2, st3⟩
                simp only [ha] at hres
                cases r2 with
                | error e2 =>
                  obtain ⟨he2, _⟩ := addProcessNodeInfo_error ha
                  subst he2
                  injection hres with h1 h2; subst h1; simp
                | ok u => injection hres with h1 h2; subst h1; simp
              | false =>
                simp only [hop, Bool.false_eq_true, if_false] at hres
                injection hres with h1 h2; subst h1; simp
  have hsp : ∀ gw ∈ doc.elements, rank gw.id ≤ k →
      ∀ (f : Nat) (st : St),
        k * (maxOut doc + 2) + (maxOut doc + 1) ≤ f →
        (parseSplittedControlflow doc f st gw).1 ≠ .error .fuelOut ∧
        (∀ t l st', parseSplittedControlflow doc f st gw = (.ok (t, l), st') →
          ∀ le, l = some le → le ∈ doc.elements ∧ rank le.id < rank gw.id) := by
    intro gw hgw hrk f st hf
    obtain ⟨g, rfl⟩ := fuel_succ hf (by omega)
    rcases hres : parseSplittedControlflow doc (g + 1) st gw with ⟨r, st1⟩
    suffices hsuf : r ≠ .error .fuelOut ∧
        (∀ t l, r = .ok (t, l) →
          ∀ le, l = some le → le ∈ doc.elements ∧ rank le.id < rank gw.id) by
      constructor
      · exact hsuf.1
      · intro t l st' h
        simp only [Prod.mk.injEq] at h
        exact hsuf.2 t l h.1
    rw [parseSplittedControlflow_succ] at hres
    rcases hout : gw.outgoing with _ | edges
    · simp only [hout] at hres
      injection hres with h1 h2
      subst h1
      exact ⟨by simp, by intro t l h; simp at h⟩
    · simp only [hout] at hres
      have hmem : ∀ eid ∈ edges, eid ∈ gw.outgoing.getD [] := by
        intro eid he
        rw [hout]
        exact he
      have hlen : edges.length ≤ maxOut doc := by
        have h0 := le_maxOut hgw
        rw [hout] at h0
        exact h0
      have hbr2 := hbr gw hgw hrk edges hmem (g + 1) st gw.type (by omega)
      rcases hb : parseBranches doc (g + 1) st edges gw.type with ⟨rb, st2⟩
      simp only [hb] at hres
      cases rb with
      | error e =>
        injection hres with h1 h2
        subst h1
        have h1 := hbr2.1
        rw [hb] at h1
        exact ⟨ne_fuelOut_transfer h1, by intro t l h; simp at h⟩
      | ok w =>
        obtain ⟨frags, lasts⟩ := w
        cases hall : allSameFirstId lasts with
        | false =>
          simp only [hall, Bool.false_eq_true, if_false] at hres
          injection hres with h1 h2
          subst h1
          exact ⟨by simp, by intro t l h; simp at h⟩
        | true =>
          simp only [hall, if_true] at hres
          rcases ha : addProcessNodeInfo st2 gw with ⟨r2, st3⟩
          simp only [ha] at hres
          cases r2 with
          | error e2 =>
            obtain ⟨he2, _⟩ := addProcessNodeInfo_error ha
            subst he2
            injection hres with h1 h2
            subst h1
            exact ⟨by simp, by intro t l h; simp at h⟩
          | ok u =>
            injection hres with h1 h2
            subst h1
            refine ⟨by simp, ?_⟩
            intro t l h le hle
            simp only [Except.ok.injEq, Prod.mk.injEq] at h
            rw [← h.2] at hle
            have hle_mem : le ∈ lasts := by
              cases lasts with
              | nil => simp at hle
              | cons a tla =>
                simp only [List.head?_cons, Option.some.injEq] at hle
                subst hle
                exact List.mem_cons_self _ _
            exact hbr2.2 frags lasts st2 hb le hle_mem
  have hseg : ∀ cur ∈ doc.elements, rank cur.id ≤ k →
      ∀ (f : Nat) (st : St),
        k * (maxOut doc + 2) + (maxOut doc + 2) ≤ f →
        (parseProcessSegment doc f st cur).1 ≠ .error .fuelOut ∧
        (∀ t l st', parseProcessSegment doc f st cur = (.ok (t, l), st') →
          ∀ le, l = some le → le ∈ doc.elements ∧ rank le.id ≤ rank cur.id) := by
    intro cur hcur hrk f st hf
    obtain ⟨g, rfl⟩ := fuel_succ hf (by omega)
    rcases hres : parseProcessSegment doc (g + 1) st cur with ⟨r, st1⟩
    suffices hsuf : r ≠ .error .fuelOut ∧
        (∀ t l, r = .ok (t, l) →
          ∀ le, l = some le → le ∈ doc.elements ∧ rank le.id ≤ rank cur.id) by
      constructor
      · exact hsuf.1
      · intro t l st' h
        simp only [Prod.mk.injEq] at h
        exact hsuf.2 t l h.1
    rw [parseProcessSegment_succ] at hres
    cases htask : cur.type == "bpmn:Task" with
    | true =>
      simp only [htask, if_true] at hres
      rcases ha : addProcessNodeInfo st cur with ⟨r2, st2⟩
      simp only [ha] at hres
      cases r2 with
      | error e2 =>
        obtain ⟨he2, _⟩ := addProcessNodeInfo_error ha
        subst he2
        injection hres with h1 h2
        subst h1
        exact ⟨by simp, by intro t l h; simp at h⟩
      | ok u =>
        injection hres with h1 h2
        subst h1
        refine ⟨by simp, ?_⟩
        intro t l h le hle
        simp only [Except.ok.injEq, Prod.mk.injEq] at h
        rw [← h.2] at hle
        injection hle with hle
        subst hle
        exact ⟨hcur, le_refl _⟩
    | false =>
      simp only [htask, Bool.false_eq_true, if_false] at hres
      cases hgate : (cur.type == "bpmn:ParallelGateway" ||
          cur.type == "bpmn:ExclusiveGateway") with
      | true =>
        simp only [hgate, if_true] at hres
        have hsp2 := hsp cur hcur hrk g st (by omega)
        have h1 := hsp2.1
        rw [hres] at h1
        refine ⟨h1, ?_⟩
        intro t l h le hle
        rw [h] at hres
        have hv := hsp2.2 t l st1 hres le hle
        exact ⟨hv.1, le_of_lt hv.2⟩
      | false =>
        simp only [hgate, Bool.false_eq_true, if_false] at hres
        cases hsub : cur.type == "bpmn:SubProcess" with
        | true =>
          simp only [hsub, if_true] at hres
          have hpp2 := hpp cur hcur hrk g st (by omega)
          have h1 := hpp2
          rw [hres] at h1
          refine ⟨h1, ?_⟩
          intro t l h le hle
          rw [h] at hres
          have hl := parseProcess_ok_last hres
          rw [hl] at hle
          injection hle with hle
          subst hle
          exact ⟨hcur, le_refl _⟩
        | false =>
          simp only [hsub, Bool.false_eq_true, if_false] at hres
          injection hres with h1 h2
          subst h1
          refine ⟨by simp, ?_⟩
          intro t l h le hle
          simp only [Except.ok.injEq, Prod.mk.injEq] at h
          rw [← h.2] at hle
          simp at hle
  have hfl : ∀ cur ∈ doc.elements, rank cur.id ≤ k →
      ∀ (f : Nat) (st : St) (acc : List PTree) (tt : String),
        k * (maxOut doc + 2) + (maxOut doc + 2) ≤ f →
        (flowLoop doc f st acc (some cur) tt).1 ≠ .error .fuelOut ∧
        (∀ l nx st', flowLoop doc f st acc (some cur) tt = (.ok (l, nx), st') →
          ∀ stop, nx = some stop → stop ∈ doc.elements ∧ rank stop.id ≤ rank cur.id) := by
    intro cur hcur hrk f st acc tt hf
    obtain ⟨g, rfl⟩ := fuel_succ hf (by omega)
    rcases hres : flowLoop doc (g + 1) st acc (some cur) tt with ⟨r, st1⟩
    suffices hsuf : r ≠ .error .fuelOut ∧
        (∀ l nx, r = .ok (l, nx) →
          ∀ stop, nx = some stop → stop ∈ doc.elements ∧
            rank stop.id ≤ rank cur.id) by
      constructor
      · exact hsuf.1
      · intro l nx st' h
        simp only [Prod.mk.injEq] at h
        exact hsuf.2 l nx h.1
    rw [flowLoop_succ] at hres
    cases hterm : cur.type == tt with
    | true =>
      simp only [hterm, if_true] at hres
      injection hres with h1 h2
      subst h1
      refine ⟨by simp, ?_⟩
      intro l nx h stop hstop
      simp only [Except.ok.injEq, Prod.mk.injEq] at h
      rw [← h.2] at hstop
      injection hstop with hstop
      subst hstop
      exact ⟨hcur, le_refl _⟩
    | false =>
      simp only [hterm, Bool.false_eq_true, if_false] at hres
      have hseg2 := hseg cur hcur hrk (g + 1) st hf
      rcases hsr : parseProcessSegment doc (g + 1) st cur with ⟨rs, st2⟩
      simp only [hsr] at hres
      cases rs with
      | error e =>
        injection hres with h1 h2
        subst h1
        have h1 := hseg2.1
        rw [hsr] at h1
        exact ⟨ne_fuelOut_transfer h1, by intro l nx h; simp at h⟩
      | ok v =>
        obtain ⟨treePart, lastElement⟩ := v
        cases lastElement with
        | none =>
          simp only [] at hres
          injection hres with h1 h2
          subst h1
          refine ⟨by simp, ?_⟩
          intro l nx h stop hstop
          simp only [Except.ok.injEq, Prod.mk.injEq] at h
          rw [← h.2] at hstop
          simp at hstop
        | some le =>
          have hinv := hseg2.2 treePart (some le) st2 hsr le rfl
          rcases hout : le.outgoing with _ | ll
          · simp only [hout] at hres
            injection hres with h1 h2
            subst h1
            refine ⟨by simp, ?_⟩
            intro l nx h stop hstop
            simp only [Except.ok.injEq, Prod.mk.injEq] at h
            rw [← h.2] at hstop
            simp at hstop
          · cases ll with
            | nil =>
              simp only [hout] at hres
              injection hres with h1 h2
              subst h1
              exact ⟨by simp, by intro l nx h; simp at h⟩
            | cons eid rest2 =>
              simp only [hout] at hres
              rcases hfind : doc.find eid with _ | edge
              · simp only [hfind] at hres
                injection hres with h1 h2
                subst h1
                exact ⟨by simp, by intro l nx h; simp at h⟩
              · simp only [hfind] at hres
                rcases htr2 : edge.targetRef with _ | tid
                · simp only [htr2] at hres
                  injection hres with h1 h2
                  subst h1
                  refine ⟨by simp, ?_⟩
                  intro l nx h stop hstop
                  simp only [Except.ok.injEq, Prod.mk.injEq] at h
                  rw [← h.2] at hstop
                  simp at hstop
                · simp only [htr2] at hres
                  rcases hft2 : doc.find tid with _ | tgt
                  · simp only [hft2] at hres
                    injection hres with h1 h2
                    subst h1
                    exact ⟨by simp, by intro l nx h; simp at h⟩
                  · simp only [hft2] at hres
                    have htgt_mem := Doc.find_mem hft2
                    have hstep := stepToB_of_edge
                      (show eid ∈ le.outgoing.getD [] by
                        rw [hout]; exact List.mem_cons_self _ _)
                      hfind htr2 hft2
                    have hlt : rank tgt.id < rank le.id :=
                      hrank le hinv.1 tgt htgt_mem hstep
                    have hjk : rank tgt.id < k :=
                      lt_of_lt_of_le hlt (le_trans hinv.2 hrk)
                    have harith : rank tgt.id * (maxOut doc + 2) +
                        (maxOut doc + 2) ≤ g := by
                      have h1 : (rank tgt.id + 1) * (maxOut doc + 2) ≤
                          k * (maxOut doc + 2) := Nat.mul_le_mul_right _ hjk
                      have h2 : (rank tgt.id + 1) * (maxOut doc + 2) =
                          rank tgt.id * (maxOut doc + 2) + (maxOut doc + 2) := by
                        ring
                      rw [h2] at h1
                      omega
                    have hflIH := (IH _ hjk).2.2.2.2.1 tgt htgt_mem (le_refl _)
                      g st2 (acc ++ [treePart]) tt harith
                    rcases hrec : flowLoop doc g st2 (acc ++ [treePart])
                      (some tgt) tt with ⟨rr, st3⟩
                    simp only [hrec] at hres
                    cases rr with
                    | error e =>
                      injection hres with h1 h2
                      subst h1
                      have h1 := hflIH.1
                      rw [hrec] at h1
                      exact ⟨h1, by intro l nx h; simp at h⟩
                    | ok w =>
                      obtain ⟨l2, nx2⟩ := w
                      injection hres with h1 h2
                      subst h1
                      refine ⟨by simp, ?_⟩
                      intro l nx h stop hstop
                      simp only [Except.ok.injEq, Prod.mk.injEq] at h
                      rw [← h.2] at hstop
                      have hv := hflIH.2 l2 nx2 st3 hrec stop hstop
                      exact ⟨hv.1, le_trans hv.2
                        (le_trans (le_of_lt hlt) hinv.2)⟩
  have hpfu : ∀ cur ∈ doc.elements, rank cur.id ≤ k →
      ∀ (f : Nat) (st : St) (tt : String),
        k * (maxOut doc + 2) + (maxOut doc + 2) ≤ f →
        (parseProcessFlowUntilElement doc f st (some cur) tt).1 ≠ .error .fuelOut ∧
        (∀ l nx st', parseProcessFlowUntilElement doc f st (some cur) tt =
            (.ok (l, nx), st') →
          ∀ stop, nx = some stop → stop ∈ doc.elements ∧ rank stop.id ≤ rank cur.id) := by
    intro cur hcur hrk f st tt hf
    obtain ⟨g, rfl⟩ := fuel_succ hf (by omega)
    rcases hres : parseProcessFlowUntilElement doc (g + 1) st (some cur) tt
      with ⟨r, st1⟩
    suffices hsuf : r ≠ .error .fuelOut ∧
        (∀ l nx, r = .ok (l, nx) →
          ∀ stop, nx = some stop → stop ∈ doc.elements ∧
            rank stop.id ≤ rank cur.id) by
      constructor
      · exact hsuf.1
      · intro l nx st' h
        simp only [Prod.mk.injEq] at h
        exact hsuf.2 l nx h.1
    rw [parseProcessFlowUntilElement_succ] at hres
    have hfl2 := hfl cur hcur hrk (g + 1) st [] tt hf
    rcases hw : flowLoop doc (g + 1) st [] (some cur) tt with ⟨r1, st2⟩
    simp only [hw] at hres
    cases r1 with
    | error e =>
      injection hres with h1 h2
      subst h1
      have h1 := hfl2.1
      rw [hw] at h1
      exact ⟨h1, by intro l nx h; simp at h⟩
    | ok v =>
      obtain ⟨pl, next⟩ := v
      cases hlen1 : pl.length == 1 with
      | true =>
        simp only [hlen1, if_true] at hres
        injection hres with h1 h2
        subst h1
        refine ⟨by simp, ?_⟩
        intro l nx h stop hstop
        simp only [Except.ok.injEq, Prod.mk.injEq] at h
        rw [← h.2] at hstop
        exact hfl2.2 pl next st2 hw stop hstop
      | false =>
        simp only [hlen1, Bool.false_eq_true, if_false] at hres
        injection hres with h1 h2
        subst h1
        refine ⟨by simp, ?_⟩
        intro l nx h stop hstop
        simp only [Except.ok.injEq, Prod.mk.injEq] at h
        rw [← h.2] at hstop
        exact hfl2.2 pl next st2 hw stop hstop
  exact ⟨hbr, hpp, hsp, hseg, hfl, hpfu⟩

/-- On a document whose walk moves strictly decrease some rank of element
ids — in particular on every document whose walk structure is acyclic —
`parseBpmnModdle` terminates: some fuel yields a result other than
`fuelOut`. -/
theorem terminates_of_rank (doc : Doc) (rank : String → Nat)
    (hrank : ∀ b ∈ doc.elements, ∀ a ∈ doc.elements,
      stepToB doc b a = true → rank a.id < rank b.id) (st : St) :
    ∃ f : Nat, (parseBpmnModdle doc f st).1 ≠ .error .fuelOut := by
  rcases hhd : doc.rootElements.head? with _ | rid
  · refine ⟨0, ?_⟩
    unfold parseBpmnModdle
    simp only [hhd]
    simp
  · rcases hfind : doc.find rid with _ | proc
    · refine ⟨0, ?_⟩
      unfold parseBpmnModdle
      simp only [hhd, hfind]
      simp
    · refine ⟨rank proc.id * (maxOut doc + 2) + 1, ?_⟩
      have hm := Doc.find_mem hfind
      have hppk := (term_bundle doc rank hrank (rank proc.id)).2.1 proc hm
        (le_refl _) (rank proc.id * (maxOut doc + 2) + 1) st (le_refl _)
      unfold parseBpmnModdle
      simp only [hhd, hfind]
      rcases hp : parseProcess doc (rank proc.id * (maxOut doc + 2) + 1) st proc
        with ⟨r, st'⟩
      rw [hp] at hppk
      cases r with
      | error e => exact ne_fuelOut_transfer hppk
      | ok v => obtain ⟨tree, last⟩ := v; simp

/-- A rank certifying that the walk structure of the one-task linear
process is acyclic. -/
def linRankW : String → Nat := fun i =>
  if i = "End_1" then 0 else if i = "A" then 1 else if i = "Process_1" then 2 else 3

/-- C9 counterexample: conversion does not terminate on every finite input
graph — on the finite cyclic document `cycDoc` no fuel bound suffices: the
walk keeps advancing along the back edge forever. -/
theorem C9_counterexample :
    ¬ ∃ f : Nat, (parseBpmnModdle cycDoc f []).1 ≠ .error .fuelOut := by
  rintro ⟨f, hf⟩
  exact hf (cyc_parse f [])

/-- C9 (amended): conversion does not terminate on every finite input graph,
but it does terminate on every input that admits a ranking of its elements
strictly decreasing along each walk move — equivalently, whose walk
structure is acyclic: some fuel then yields a real result, never fuel
exhaustion.  In particular every well-formed linear process and every
well-formed diamond converts with fuel linear in the model size. -/
theorem C9_termination :
    (∀ (doc : Doc) (rank : String → Nat),
       (∀ b ∈ doc.elements, ∀ a ∈ doc.elements,
         stepToB doc b a = true → rank a.id < rank b.id) →
       ∀ st : St, ∃ f : Nat, (parseBpmnModdle doc f st).1 ≠ .error .fuelOut) ∧
    (∀ tasks : List (String × String),
       ((linearDoc tasks).elements.map Element.id).Nodup →
       (parseBpmnModdle (linearDoc tasks) (tasks.length + 3) []).1 ≠
         .error .fuelOut) ∧
    (∀ (gwType gwOp : String) (bs : List (String × String))
       (b0 : String × String) (bs0 : List (String × String)),
       ((diamondDoc gwType gwOp bs).elements.map Element.id).Nodup →
       isGatewayKind gwType → bs = b0 :: bs0 →
       (parseBpmnModdle (diamondDoc gwType gwOp bs) (bs.length + 5) []).1 ≠
         .error .fuelOut) := by
  refine ⟨fun doc rank h st => terminates_of_rank doc rank h st, ?_, ?_⟩
  · intro tasks hnd
    rw [lin_parseBpmnModdle_eq tasks hnd]
    by_cases h : (tasks.map (fun p => PTree.leaf p.1)).length == 1 <;> simp [h]
  · intro gwType gwOp bs b0 bs0 hnd hga hbs
    rw [dia_parseBpmnModdle hnd hga hbs]
    simp

/-- Witness for C9 (amended): the one-task linear process admits a strictly
decreasing rank of its walk moves, so the general termination part applies
to it; the linear-family part is instantiated on it as well. -/
theorem C9_termination_witness :
    (∀ b ∈ (linearDoc [("A", "click")]).elements,
       ∀ a ∈ (linearDoc [("A", "click")]).elements,
         stepToB (linearDoc [("A", "click")]) b a = true →
           linRankW a.id < linRankW b.id) ∧
    (∃ f : Nat, (parseBpmnModdle (linearDoc [("A", "click")]) f []).1 ≠
      .error .fuelOut) ∧
    (parseBpmnModdle (linearDoc [("A", "click")]) 4 []).1 ≠ .error .fuelOut :=
  ⟨by decide,
   C9_termination.1 (linearDoc [("A", "click")]) linRankW (by decide) [],
   C9_termination.2.1 [("A", "click")] (by decide)⟩

theorem hasKey_addProcessNodeInfo (st : St) (e : Element) (k : String)
    (hk : hasKey st k = true) : hasKey (addProcessNodeInfo st e).2 k = true := by
  unfold addProcessNodeInfo
  cases getProcessNodeInfo e with
  | error er => exact hk
  | ok info => exact hasKey_recordInfo_of_hasKey _ _ hk

/-- Keys of the metadata table are never removed: every parsing function —
on success and on failure alike — returns a table containing every key that
was present when it started. -/
theorem keys_mono (n : Nat) : ∀ doc : Doc,
    (∀ (st : St) (p : Element) (k : String), hasKey st k = true →
      hasKey (parseProcess doc n st p).2 k = true) ∧
    (∀ (st : St) (s : Option Element) (tt : String) (k : String),
      hasKey st k = true →
      hasKey (parseProcessFlowUntilElement doc n st s tt).2 k = true) ∧
    (∀ (st : St) (acc : List PTree) (s : Option Element) (tt : String) (k : String),
      hasKey st k = true → hasKey (flowLoop doc n st acc s tt).2 k = true) ∧
    (∀ (st : St) (cur : Element) (k : String), hasKey st k = true →
      hasKey (parseProcessSegment doc n st cur).2 k = true) ∧
    (∀ (st : St) (gw : Element) (k : String), hasKey st k = true →
      hasKey (parseSplittedControlflow doc n st gw).2 k = true) ∧
    (∀ (st : St) (edges : List String) (tt : String) (k : String),
      hasKey st k = true → hasKey (parseBranches doc n st edges tt).2 k = true) := by
  induction n with
  | zero =>
    intro doc
    exact ⟨fun st _ _ hk => hk, fun st _ _ _ hk => hk, fun st _ _ _ _ hk => hk,
      fun st _ _ hk => hk, fun st _ _ hk => hk, fun st _ _ _ hk => hk⟩
  | succ n ih =>
    intro doc
    obtain ⟨ihpp, ihpfu, ihfl, ihseg, ihsplit, ihbr⟩ := ih doc
    have hseg : ∀ (st : St) (cur : Element) (k : String), hasKey st k = true →
        hasKey (parseProcessSegment doc (n + 1) st cur).2 k = true := by
      intro st cur k hk
      rw [parseProcessSegment_succ]
      split
      · split
        · rename_i heq
          have h1 := hasKey_addProcessNodeInfo st cur k hk
          rw [heq] at h1
          exact h1
        · rename_i heq
          have h1 := hasKey_addProcessNodeInfo st cur k hk
          rw [heq] at h1
          exact h1
      · split
        · exact ihsplit st cur k hk
        · split
          · exact ihpp st cur k hk
          · exact hk
    have hfl : ∀ (st : St) (acc : List PTree) (s : Option Element) (tt : String)
        (k : String), hasKey st k = true →
        hasKey (flowLoop doc (n + 1) st acc s tt).2 k = true := by
      intro st acc s tt k hk
      rw [flowLoop_succ]
      split
      · exact hk
      · rename_i cur
        split
        · exact hk
        · have h1 := hseg st cur k hk
          split
          · rename_i heq
            rw [heq] at h1
            exact h1
          · rename_i heq
            rw [heq] at h1
            split
            · exact h1
            · split
              · exact h1
              · exact h1
              · split
                · exact h1
                · split
                  · exact h1
                  · split
                    · exact h1
                    · exact ihfl _ _ _ _ k h1
    have hpfu : ∀ (st : St) (s : Option Element) (tt : String) (k : String),
        hasKey st k = true →
        hasKey (parseProcessFlowUntilElement doc (n + 1) st s tt).2 k = true := by
      intro st s tt k hk
      rw [parseProcessFlowUntilElement_succ]
      split
      · rename_i heq
        have h1 := hfl st [] s tt k hk
        rw [heq] at h1
        exact h1
      · rename_i heq
        have h1 := hfl st [] s tt k hk
        rw [heq] at h1
        split <;> exact h1
    have hbr : ∀ (st : St) (edges : List String) (tt : String) (k : String),
        hasKey st k = true →
        hasKey (parseBranches doc (n + 1) st edges tt).2 k = true := by
      intro st edges tt k hk
      cases edges with
      | nil => rw [parseBranches_succ_nil]; exact hk
      | cons e rest =>
        rw [parseBranches_succ_cons]
        have hcont : ∀ s : Option Element,
            hasKey (match parseProcessFlowUntilElement doc (n + 1) st s tt with
              | (.error e, st') => ((.error e : Except Err (List PTree × List Element)), st')
              | (.ok (parsedFlowBranch, lastElement), st') =>
                match parseBranches doc n st' rest tt with
                | (.error e, st'') => (.error e, st'')
                | (.ok (fr, ls), st'') =>
                  (.ok ((match parsedFlowBranch with | [x] => x | l => .arr l) :: fr,
                        (match lastElement with | some le => [le] | none => []) ++ ls),
                   st'')).2 k = true := by
          intro s
          have h1 := hpfu st s tt k hk
          rcases hpw : parseProcessFlowUntilElement doc (n + 1) st s tt with ⟨r1, st1⟩
          rw [hpw] at h1
          try simp only [hpw]
          cases r1 with
          | error e1 => exact h1
          | ok v =>
            obtain ⟨parsed, lastEl⟩ := v
            have h2 := ihbr st1 rest tt k h1
            rcases hrec : parseBranches doc n st1 rest tt with ⟨r2, st2⟩
            rw [hrec] at h2
            try simp only [hrec]
            cases r2 with
            | error e2 => exact h2
            | ok v2 => obtain ⟨fr, ls⟩ := v2; exact h2
        rcases hfind : doc.find e with _ | branch
        · try simp only [hfind]
          exact hk
        · try simp only [hfind]
          rcases htr : branch.targetRef with _ | tid
          · try simp only [htr]
            exact hcont none
          · try simp only [htr]
            rcases hft : doc.find tid with _ | tgt
            · try simp only [hft]
              exact hk
            · try simp only [hft]
              exact hcont (some tgt)
    have hsplit : ∀ (st : St) (gw : Element) (k : String), hasKey st k = true →
        hasKey (parseSplittedControlflow doc (n + 1) st gw).2 k = true := by
      intro st gw k hk
      rw [parseSplittedControlflow_succ]
      rcases hout : gw.outgoing with _ | edges
      · try simp only [hout]
        exact hk
      · try simp only [hout]
        have h1 := hbr st edges gw.type k hk
        rcases hb : parseBranches doc (n + 1) st edges gw.type with ⟨r1, st1⟩
        rw [hb] at h1
        try simp only [hb]
        cases r1 with
        | error e1 => exact h1
        | ok v =>
          obtain ⟨frags, lasts⟩ := v
          by_cases hsame : allSameFirstId lasts
          · simp only [hsame, if_true]
            have h2 := hasKey_addProcessNodeInfo st1 gw k h1
            rcases ha : addProcessNodeInfo st1 gw with ⟨r2, st2⟩
            rw [ha] at h2
            try simp only [ha]
            cases r2 with
            | error e2 => exact h2
            | ok u => exact h2
          · simp only [hsame, if_false]
            exact h1
    have hpp : ∀ (st : St) (p : Element) (k : String), hasKey st k = true →
        hasKey (parseProcess doc (n + 1) st p).2 k = true := by
      intro st p k hk
      rw [parseProcess_succ]
      rcases hsf : getStartFlowOfProcess doc p with e | o
      · try simp only [hsf]
        exact hk
      · try simp only [hsf]
        cases o with
        | none => exact hk
        | some fl =>
          rcases htr : fl.targetRef with _ | tid
          · try simp only [htr]
            exact hk
          · try simp only [htr]
            rcases hft : doc.find tid with _ | tgt
            · try simp only [hft]
              exact hk
            · try simp only [hft]
              have h1 := hpfu st (some tgt) "bpmn:EndEvent" k hk
              rcases hw : parseProcessFlowUntilElement doc (n + 1) st (some tgt)
                "bpmn:EndEvent" with ⟨r1, st1⟩
              rw [hw] at h1
              try simp only [hw]
              cases r1 with
              | error e1 => exact h1
              | ok v =>
                obtain ⟨treePart, last⟩ := v
                by_cases hop : (lookupAttr p "rpa:operation").isSome
                · simp only [hop, if_true]
                  have h2 := hasKey_addProcessNodeInfo st1 p k h1
                  rcases ha : addProcessNodeInfo st1 p with ⟨r2, st2⟩
                  rw [ha] at h2
                  try simp only [ha]
                  cases r2 with
                  | error e2 => exact h2
                  | ok u => exact h2
                · simp only [hop, if_false]
                  exact h1
    exact ⟨hpp, hpfu, hfl, hseg, hsplit, hbr⟩

/-- Linear process `Start → A → B → End` where `A` carries an operation but
`B` does not: conversion records `A`, then aborts at `B`. -/
def abortDoc : Doc :=
  { rootElements := ["Process_1"],
    elements :=
      [ { id := "Process_1", type := "bpmn:Process", flowElements := ["sf_A"] },
        { id := "Start_1", type := "bpmn:StartEvent", outgoing := some ["sf_A"] },
        mkFlow "sf_A" "Start_1" "A",
        mkTask "A" "aop" "sf_B",
        mkFlow "sf_B" "A" "B",
        { id := "B", type := "bpmn:Task", outgoing := some ["sf_end"] },
        mkFlow "sf_end" "B" "End_1",
        linEnd ] }

/-- C10 counterexample: re-recording the same node id overwrites the stored
value, so a later `parseBpmnModdle` call does *not* contain the entries of
earlier calls — after converting `A ↦ click` and then (on the same parser
state) a model binding `A` to `type`, the original entry `(A, click)` is
gone from the returned table; only the key survives. -/
theorem C10_counterexample :
    (parseBpmnModdle (linearDoc [("A", "click")]) 4 []).2 =
      [("A", ⟨"A", "click"⟩)] ∧
    (parseBpmnModdle (linearDoc [("A", "type")]) 4 [("A", ⟨"A", "click"⟩)]).2 =
      [("A", ⟨"A", "type"⟩)] ∧
    ("A", (⟨"A", "click"⟩ : NodeInfo)) ∉
      [("A", (⟨"A", "type"⟩ : NodeInfo))] :=
  ⟨rfl, rfl, by decide⟩

/-- C10 (amended): the metadata table is never cleared and no key is ever
removed — every `parseBpmnModdle` call, succeeding or failing, returns a
table containing every key present when the call started (values may be
overwritten by re-recording, see the counterexample); and a conversion that
aborts keeps the entries recorded before the abort, as the concrete
aborting run shows. -/
theorem C10_table_never_cleared :
    (∀ (doc : Doc) (f : Nat) (st : St) (k : String), hasKey st k = true →
       hasKey (parseBpmnModdle doc f st).2 k = true) ∧
    parseBpmnModdle abortDoc 10 [] =
      (.error .missingOperationBinding, [("A", ⟨"A", "aop"⟩)]) := by
  constructor
  · intro doc f st k hk
    unfold parseBpmnModdle
    rcases hh : doc.rootElements.head? with _ | rid
    · try simp only [hh]
      exact hk
    · try simp only [hh]
      rcases hf : doc.find rid with _ | proc
      · try simp only [hf]
        exact hk
      · try simp only [hf]
        have h1 := (keys_mono f doc).1 st proc k hk
        rcases hp : parseProcess doc f st proc with ⟨r, st'⟩
        rw [hp] at h1
        try simp only [hp]
        cases r with
        | error e => exact h1
        | ok v => obtain ⟨tree, last⟩ := v; exact h1
  · rfl

/-- Witness for C10 (amended): a pre-existing key `X` survives a full
conversion run on an unrelated model. -/
theorem C10_table_never_cleared_witness :
    hasKey [("X", (⟨"X", "x"⟩ : NodeInfo))] "X" = true ∧
    hasKey (parseBpmnModdle (linearDoc [("A", "type")]) 4
      [("X", ⟨"X", "x"⟩)]).2 "X" = true :=
  ⟨by decide,
   C10_table_never_cleared.1 (linearDoc [("A", "type")]) 4
     [("X", ⟨"X", "x"⟩)] "X" (by decide)⟩
